import Mathlib

/-!
Verification of the simulation kernel of the `pacman` repository.

The Go sources are shallowly embedded:
* machine `int` becomes `ℤ` (or `ℕ` where the source value is a length or a
  count and hence non-negative),
* `float64` positions and speeds become `ℚ` (the kernel only adds,
  multiplies, compares and truncates, so the embedding is exact),
* Go slices become Lean lists, with out-of-range reads modelled by `Option`
  lookups; a Go index panic is modelled by `Option.none` at load time,
* the global random source becomes an explicit numeric argument.
-/

namespace Pacman

/-- Cell kinds of the grid, from `model.Tile` (`TileEmpty`, `TileWall`,
`TilePel`). The parser never produces any other kind. -/
inductive Tile where
  | empty
  | wall
  | pel
  deriving DecidableEq, Repr

/-- The level record, from `model.Level`: a row-major grid (`Grid[y][x]`),
its dimensions, and the pellet count taken at load time. -/
structure Level where
  grid : List (List Tile)
  width : ℕ
  height : ℕ
  totalPellets : ℕ
  deriving DecidableEq, Repr

/-- Character-to-cell translation, from the `switch ch` in `model.New`:
`'#'` is a wall, `'.'` a pellet, everything else empty. -/
def parseTile (ch : Char) : Tile :=
  if ch = '#' then Tile.wall else if ch = '.' then Tile.pel else Tile.empty

/-- The built-in level, from `model.DefaultLevelData`. -/
def DefaultLevelData : List (List Char) :=
  [ "#####################",
    "#...................#",
    "#.###.#.###.#.###.###",
    "#.#...#...#...#...#.#",
    "#.#.#####.#.#####.#.#",
    "#...................#",
    "#.###.#.###.#.###.###",
    "#.#...#...#...#...#.#",
    "#.#.#####.#.#####.#.#",
    "#...................#",
    "#####################" ].map String.toList

/-- Run an `Option`-valued producer over a list, failing as soon as one
element fails: the embedding of a Go loop whose body can panic. -/
def mapOpt {α β : Type} (f : α → Option β) : List α → Option (List β)
  | [] => some []
  | a :: l =>
    match f a, mapOpt f l with
    | some b, some bs => some (b :: bs)
    | _, _ => none

/-- One parsed row of `model.New`: the inner loop reads `levelData[y][x]`
for `x < width`; reading past the end of the row is a Go index panic,
modelled as `none`.  A row longer than `width` is silently truncated,
exactly as in the source. -/
def rowTiles (width : ℕ) (row : List Char) : Option (List Tile) :=
  mapOpt (fun x => (row.get? x).map parseTile) (List.range width)

/-- Number of pellet cells in a grid; `model.New` accumulates
`TotalPellets` over exactly the cells it writes. -/
def countPellets (grid : List (List Tile)) : ℕ :=
  (grid.map (List.count Tile.pel)).sum

/-- Level construction, from `model.New`: an empty row list is replaced by
`DefaultLevelData`; `Width` is the length of row 0 and `Height` the number
of rows; a too-short row makes the original panic (here `none`). -/
def Level.New (levelData : List (List Char)) : Option Level :=
  let data := if levelData.length = 0 then DefaultLevelData else levelData
  let width := (data.headD []).length
  match mapOpt (rowTiles width) data with
  | none => none
  | some grid => some ⟨grid, width, data.length, countPellets grid⟩

/-- In-bounds array read `l.Grid[y][x]`; the `.wall` default is never hit
on well-formed levels (it only matters to make the function total). -/
def Level.cellAt (l : Level) (x y : ℕ) : Tile :=
  (((l.grid.get? y).getD []).get? x).getD Tile.wall

/-- The bounds test shared by `CanWalk`, `GetTile` and `SetTile`:
`x < 0 || y < 0 || x >= l.Width || y >= l.Height`. -/
def Level.oob (l : Level) (x y : ℤ) : Prop :=
  x < 0 ∨ y < 0 ∨ (l.width : ℤ) ≤ x ∨ (l.height : ℤ) ≤ y

instance (l : Level) (x y : ℤ) : Decidable (l.oob x y) := by
  unfold Level.oob; infer_instance

/-- From `Level.CanWalk`: out of bounds is not walkable, otherwise
everything but a wall is. -/
def Level.CanWalk (l : Level) (x y : ℤ) : Bool :=
  if l.oob x y then false else decide (l.cellAt x.toNat y.toNat ≠ Tile.wall)

/-- From `Level.GetTile`: out of bounds reads as `TileWall`. -/
def Level.GetTile (l : Level) (x y : ℤ) : Tile :=
  if l.oob x y then Tile.wall else l.cellAt x.toNat y.toNat

/-- In-bounds array write `l.Grid[y][x] = tile`. -/
def setCell (grid : List (List Tile)) (x y : ℕ) (t : Tile) : List (List Tile) :=
  grid.set y (((grid.get? y).getD []).set x t)

/-- From `Level.SetTile`: out of bounds writes are dropped. -/
def Level.SetTile (l : Level) (x y : ℤ) (t : Tile) : Level :=
  if l.oob x y then l else { l with grid := setCell l.grid x.toNat y.toNat t }

/-- From `Level.ConsumePellet`: clear a pellet cell to empty and report
success, otherwise do nothing. -/
def Level.ConsumePellet (l : Level) (x y : ℤ) : Bool × Level :=
  if l.GetTile x y = Tile.pel then (true, l.SetTile x y Tile.empty)
  else (false, l)

/-- Pellet cells still present in a level's grid (the quantity the spec
calls the remaining consumables). -/
def Level.remaining (l : Level) : ℕ :=
  countPellets l.grid

/-- 2D vector, from `types.Vector` (`float64` components become `ℚ`).
`Len` and `Norm` are not needed by any verified operation and are
omitted. -/
structure Vec where
  x : ℚ
  y : ℚ
  deriving DecidableEq, Repr

/-- From `types.Vector.Add`. -/
def Vec.Add (v u : Vec) : Vec := ⟨v.x + u.x, v.y + u.y⟩

/-- From `types.Vector.Mul` (scalar multiplication). -/
def Vec.Mul (v : Vec) (s : ℚ) : Vec := ⟨v.x * s, v.y * s⟩

/-- Moving-agent state, from `model.Entity`.  The rendering-only fields
(`Color`) and the spawn/skill data not consulted by the verified
operations are omitted. -/
structure Entity where
  pos : Vec
  dir : Vec
  wantDir : Vec
  speed : ℚ
  deriving DecidableEq, Repr

/-- From `physics.TileSize`. -/
def TileSize : ℤ := 24

/-- Go conversion `int(f)` on a `float64`: truncation toward zero. -/
def trunc (q : ℚ) : ℤ := q.num.tdiv q.den

/-- From `physics.TileCenter`. -/
def TileCenter (tileX tileY : ℤ) : Vec :=
  ⟨((tileX * TileSize + TileSize / 2 : ℤ) : ℚ), ((tileY * TileSize + TileSize / 2 : ℤ) : ℚ)⟩

/-- From `physics.PosToTile`: `int(pos.X) / TileSize` with Go (truncated)
integer division, which is `Int.tdiv` here. -/
def PosToTile (pos : Vec) : ℤ × ℤ :=
  ((trunc pos.x).tdiv TileSize, (trunc pos.y).tdiv TileSize)

/-- From `physics.NearCenter`: within 4.0 of the tile center on both
axes. -/
def NearCenter (pos : Vec) : Bool :=
  let t := PosToTile pos
  let center := TileCenter t.1 t.2
  decide (|pos.x - center.x| ≤ 4 ∧ |pos.y - center.y| ≤ 4)

/-- From `physics.AtCenter`: within 1.0 of the tile center. -/
def AtCenter (pos : Vec) : Bool :=
  let t := PosToTile pos
  let center := TileCenter t.1 t.2
  decide (|pos.x - center.x| ≤ 1 ∧ |pos.y - center.y| ≤ 1)

/-- From `physics.VeryNearCenter`: within 2.0 of the tile center. -/
def VeryNearCenter (pos : Vec) : Bool :=
  let t := PosToTile pos
  let center := TileCenter t.1 t.2
  decide (|pos.x - center.x| ≤ 2 ∧ |pos.y - center.y| ≤ 2)

/-- From `physics.CanTurn`: the neighbor tile in the desired direction
must be walkable. -/
def CanTurn (pos : Vec) (wantDir : Vec) (lvl : Level) : Bool :=
  let t := PosToTile pos
  lvl.CanWalk (t.1 + trunc wantDir.x) (t.2 + trunc wantDir.y)

/-- From `physics.TryTurn`: record the request, and honor it (setting the
direction and snapping to the tile center) only when the target neighbor
is walkable and the position is very near the center.  The source writes
`entity.WantDir = wantDir` before branching; here each branch carries
that update. -/
def TryTurn (entity : Entity) (wantDir : Vec) (lvl : Level) : Entity :=
  if wantDir.x = 0 ∧ wantDir.y = 0 then entity
  else if wantDir = entity.dir then { entity with wantDir := wantDir }
  else if ¬ CanTurn entity.pos wantDir lvl = true then { entity with wantDir := wantDir }
  else if VeryNearCenter entity.pos = true then
    { entity with
      wantDir := wantDir, dir := wantDir,
      pos := TileCenter (PosToTile entity.pos).1 (PosToTile entity.pos).2 }
  else { entity with wantDir := wantDir }

/-- From `physics.CanMoveTo`: all four corners of an 80%-of-a-tile square
hitbox centered at `pos` must sit on walkable tiles. -/
def CanMoveTo (pos : Vec) (lvl : Level) : Bool :=
  let hitboxSize : ℚ := (TileSize : ℚ) * (8 / 10)
  let corners : List Vec :=
    [ ⟨pos.x - hitboxSize / 2, pos.y - hitboxSize / 2⟩,
      ⟨pos.x + hitboxSize / 2, pos.y - hitboxSize / 2⟩,
      ⟨pos.x - hitboxSize / 2, pos.y + hitboxSize / 2⟩,
      ⟨pos.x + hitboxSize / 2, pos.y + hitboxSize / 2⟩ ]
  corners.all fun corner =>
    let t := PosToTile corner
    lvl.CanWalk t.1 t.2

/-- The in-step turn block of `physics.StepMove`: near the center and
toward a walkable neighbor, take the requested direction and snap to the
tile center. -/
def stepTurn (entity : Entity) (lvl : Level) : Entity :=
  if ¬ entity.wantDir = entity.dir ∧ CanTurn entity.pos entity.wantDir lvl = true
      ∧ (AtCenter entity.pos = true ∨ NearCenter entity.pos = true) then
    { entity with
      dir := entity.wantDir,
      pos := TileCenter (PosToTile entity.pos).1 (PosToTile entity.pos).2 }
  else entity

/-- The advance block of `physics.StepMove`: move by `dir * speed` unless
the hitbox collides, in which case snap every moving axis back to the
tile center and stop. -/
def stepAdvance (e1 : Entity) (lvl : Level) : Entity :=
  if e1.dir = ⟨0, 0⟩ then e1
  else if ¬ CanMoveTo (e1.pos.Add (e1.dir.Mul e1.speed)) lvl = true then
    { e1 with
      pos := ⟨if ¬ e1.dir.x = 0 then
                (TileCenter (PosToTile e1.pos).1 (PosToTile e1.pos).2).x
              else e1.pos.x,
              if ¬ e1.dir.y = 0 then
                (TileCenter (PosToTile e1.pos).1 (PosToTile e1.pos).2).y
              else e1.pos.y⟩,
      dir := ⟨0, 0⟩ }
  else { e1 with pos := e1.pos.Add (e1.dir.Mul e1.speed) }

/-- From `physics.StepMove`: the in-step turn, then the advance. -/
def StepMove (entity : Entity) (lvl : Level) : Entity :=
  stepAdvance (stepTurn entity lvl) lvl

/-- The `1 << 30` infinity sentinel of the distance field. -/
def INF : ℕ := 2 ^ 30

/-- From `intelligence.DistanceMap`: a dense distance matrix indexed
`distances[y][x]` plus its dimensions.  The Go entries are `int` but are
only ever `0`, a BFS layer index, or the `INF` sentinel, hence `ℕ`. -/
structure DistanceMap where
  distances : List (List ℕ)
  width : ℕ
  height : ℕ
  deriving DecidableEq, Repr

/-- From `intelligence.NewDistanceMap`: `make` zero-fills the matrix. -/
def NewDistanceMap (width height : ℕ) : DistanceMap :=
  ⟨List.replicate height (List.replicate width 0), width, height⟩

/-- In-bounds matrix read `distances[y][x]`; the `0` default is never hit
on a matrix of the declared dimensions. -/
def getDist (d : List (List ℕ)) (x y : ℕ) : ℕ :=
  (((d.get? y).getD []).get? x).getD 0

/-- In-bounds matrix write `distances[y][x] = v`. -/
def setDist (d : List (List ℕ)) (x y : ℕ) (v : ℕ) : List (List ℕ) :=
  d.set y (((d.get? y).getD []).set x v)

/-- From `DistanceMap.GetDistance`: out of bounds reads as `INF`. -/
def DistanceMap.GetDistance (dm : DistanceMap) (tileX tileY : ℤ) : ℕ :=
  if tileX < 0 ∨ tileY < 0 ∨ (dm.width : ℤ) ≤ tileX ∨ (dm.height : ℤ) ≤ tileY then INF
  else getDist dm.distances tileX.toNat tileY.toNat

/-- The neighbor offsets of `BuildBFS` (right, left, down, up), in source
order. -/
def bfsDirs : List (ℤ × ℤ) := [(1, 0), (-1, 0), (0, 1), (0, -1)]

/-- One neighbor relaxation of the `BuildBFS` inner loop: skip when out of
the map, skip non-walkable tiles, and otherwise set the neighbor's
distance and enqueue it whenever `distances[next] > distances[cur] + 1`. -/
def relaxStep (lvl : Level) (w h : ℕ) (cur : ℕ × ℕ)
    (st : List (List ℕ) × List (ℕ × ℕ)) (d : ℤ × ℤ) :
    List (List ℕ) × List (ℕ × ℕ) :=
  if (cur.1 : ℤ) + d.1 < 0 ∨ (cur.2 : ℤ) + d.2 < 0
      ∨ (w : ℤ) ≤ (cur.1 : ℤ) + d.1 ∨ (h : ℤ) ≤ (cur.2 : ℤ) + d.2 then st
  else if ¬ lvl.CanWalk ((cur.1 : ℤ) + d.1) ((cur.2 : ℤ) + d.2) = true then st
  else if getDist st.1 cur.1 cur.2 + 1
      < getDist st.1 ((cur.1 : ℤ) + d.1).toNat ((cur.2 : ℤ) + d.2).toNat then
    (setDist st.1 ((cur.1 : ℤ) + d.1).toNat ((cur.2 : ℤ) + d.2).toNat
        (getDist st.1 cur.1 cur.2 + 1),
      st.2 ++ [(((cur.1 : ℤ) + d.1).toNat, ((cur.2 : ℤ) + d.2).toNat)])
  else st

/-- Total of all entries of a distance matrix; `2 * sumDist + |queue|` is
a strict upper bound on the number of iterations the Go `for head <
len(queue)` loop can still perform, and serves as its fuel below. -/
def sumDist (d : List (List ℕ)) : ℕ := (d.map List.sum).sum

/-- The `for head < len(queue)` loop of `BuildBFS`: pop the head node,
relax its four neighbors (appending newly improved ones).  The `fuel`
argument only bounds the iteration count so the recursion is structural;
`bfsLoop_le_fuel` below shows the fuel provided by `BuildBFS` is never
exhausted, so this is the Go loop run to completion. -/
def bfsLoop (lvl : Level) (w h : ℕ) :
    ℕ → List (List ℕ) → List (ℕ × ℕ) → List (List ℕ)
  | _, dist, [] => dist
  | 0, dist, _ => dist
  | fuel + 1, dist, cur :: rest =>
      let st := bfsDirs.foldl (relaxStep lvl w h cur) (dist, rest)
      bfsLoop lvl w h fuel st.1 st.2

/-- From `DistanceMap.BuildBFS`: reset every cell to infinity, convert the
target position to a tile, and if it is on the map run the BFS queue loop
from it with distance `0`. -/
def DistanceMap.BuildBFS (dm : DistanceMap) (targetPos : Vec) (lvl : Level) :
    DistanceMap :=
  let init := List.replicate dm.height (List.replicate dm.width INF)
  let t := PosToTile targetPos
  if t.1 < 0 ∨ t.2 < 0 ∨ (dm.width : ℤ) ≤ t.1 ∨ (dm.height : ℤ) ≤ t.2 then
    { dm with distances := init }
  else
    let d0 := setDist init t.1.toNat t.2.toNat 0
    { dm with
      distances :=
        bfsLoop lvl dm.width dm.height (2 * sumDist d0 + 1) d0
          [(t.1.toNat, t.2.toNat)] }

/-- A scored direction, from the `candidate` struct of the intelligence
package.  The score starts from a `GetDistance` value but the Genius
policy subtracts from it, so it is `ℤ` like the Go `int`. -/
structure Candidate where
  dir : Vec
  distance : ℤ
  deriving DecidableEq, Repr

/-- The four candidate directions every policy probes, in source order. -/
def aiDirs : List Vec := [⟨1, 0⟩, ⟨-1, 0⟩, ⟨0, 1⟩, ⟨0, -1⟩]

/-- The stuck-ghost escape loop shared by `dumbGhostAI`'s two emergency
blocks: the first walkable direction in probe order, if any. -/
def firstWalkable (lvl : Level) (tileX tileY : ℤ) : Option Vec :=
  aiDirs.find? fun d => lvl.CanWalk (tileX + trunc d.x) (tileY + trunc d.y)

/-- Number of walkable exits of a tile, from the `exitCount` loops of the
Smart and Genius policies. -/
def exitCount (lvl : Level) (x y : ℤ) : ℕ :=
  (bfsDirs.filter fun d => lvl.CanWalk (x + d.1) (y + d.2)).length

/-- The `directions` local every policy builds with its four
`checkDirection` calls: the walkable probe directions from tile `t`. -/
def walkDirs (lvl : Level) (t : ℤ × ℤ) : List Vec :=
  aiDirs.filter fun d => lvl.CanWalk (t.1 + trunc d.x) (t.2 + trunc d.y)

/-- The `options` local of `normalGhostAI`: each walkable direction
scored by the oracle distance of its neighbor tile. -/
def normalOptions (dm : DistanceMap) (lvl : Level) (t : ℤ × ℤ) : List Candidate :=
  (walkDirs lvl t).map fun d =>
    ⟨d, (dm.GetDistance (t.1 + trunc d.x) (t.2 + trunc d.y) : ℤ)⟩

/-- The `options` local of `smartGhostAI`: oracle distance plus a `+5`
dead-end penalty when the neighbor has exactly one exit. -/
def smartOptions (dm : DistanceMap) (lvl : Level) (t : ℤ × ℤ) : List Candidate :=
  (walkDirs lvl t).map fun d =>
    ⟨d,
      if exitCount lvl (t.1 + trunc d.x) (t.2 + trunc d.y) = 1 then
        (dm.GetDistance (t.1 + trunc d.x) (t.2 + trunc d.y) : ℤ) + 5
      else (dm.GetDistance (t.1 + trunc d.x) (t.2 + trunc d.y) : ℤ)⟩

/-- The proximity adjustment of `geniusGhostAI`: subtract 2 when the
oracle distance is at most 3. -/
def geniusClose (dm : DistanceMap) (nx ny : ℤ) : ℤ :=
  if (dm.GetDistance nx ny : ℤ) ≤ 3 then (dm.GetDistance nx ny : ℤ) - 2
  else (dm.GetDistance nx ny : ℤ)

/-- The full candidate score of `geniusGhostAI`: proximity adjustment,
then `+10` for a dead end or `-1` for an intersection of three or more
exits. -/
def geniusScore (dm : DistanceMap) (lvl : Level) (nx ny : ℤ) : ℤ :=
  if exitCount lvl nx ny = 1 then geniusClose dm nx ny + 10
  else if 3 ≤ exitCount lvl nx ny then geniusClose dm nx ny - 1
  else geniusClose dm nx ny

/-- The `options` local of `geniusGhostAI`. -/
def geniusOptions (dm : DistanceMap) (lvl : Level) (t : ℤ × ℤ) : List Candidate :=
  (walkDirs lvl t).map fun d =>
    ⟨d, geniusScore dm lvl (t.1 + trunc d.x) (t.2 + trunc d.y)⟩

/-- The `minDistance` scan of the oracle policies: fold the candidate
scores with `if option.distance < minDistance`, starting from `1 << 30`. -/
def minScore (options : List Candidate) : ℤ :=
  options.foldl (fun m o => if o.distance < m then o.distance else m) ((2 : ℤ) ^ 30)

/-- The `bestOptions` local: the candidates attaining `minDistance`. -/
def bestOf (options : List Candidate) : List Candidate :=
  options.filter fun o => o.distance = minScore options

/-- Pick `l[r % l.length]`, the explicit-randomness embedding of
`l[rand.Intn(len(l))]`.  On an empty list the original panics
(`rand.Intn(0)`); here the zero candidate is returned instead, and no
verified property depends on that case. -/
def pickFrom (l : List Candidate) (r : ℕ) : Candidate :=
  l.getD (r % l.length) ⟨⟨0, 0⟩, 0⟩

/-- `pickFrom` for the unscored direction list of `dumbGhostAI`. -/
def pickDir (l : List Vec) (r : ℕ) : Vec :=
  l.getD (r % l.length) ⟨0, 0⟩

/-- From `intelligence.dumbGhostAI` (`r` stands for the draw from the
global random source): move randomly among walkable directions, with the
emergency escapes of the source for stopped or cornered ghosts. -/
def dumbGhostAI (ghost : Entity) (lvl : Level) (r : ℕ) : Entity :=
  if ¬ NearCenter ghost.pos = true ∧ ¬ ghost.dir = ⟨0, 0⟩ then ghost
  else
    match (if ghost.dir = (⟨0, 0⟩ : Vec) then
        firstWalkable lvl (PosToTile ghost.pos).1 (PosToTile ghost.pos).2
      else none) with
    | some d =>
      { ghost with
        dir := d, wantDir := d,
        pos := TileCenter (PosToTile ghost.pos).1 (PosToTile ghost.pos).2 }
    | none =>
      if (walkDirs lvl (PosToTile ghost.pos)).length = 0 then
        if ¬ ghost.dir = ⟨0, 0⟩
            ∧ lvl.CanWalk ((PosToTile ghost.pos).1 + trunc ghost.dir.x)
                ((PosToTile ghost.pos).2 + trunc ghost.dir.y) = true then
          { ghost with pos := TileCenter (PosToTile ghost.pos).1 (PosToTile ghost.pos).2 }
        else
          match firstWalkable lvl (PosToTile ghost.pos).1 (PosToTile ghost.pos).2 with
          | some d =>
            { ghost with
              dir := d, wantDir := d,
              pos := TileCenter (PosToTile ghost.pos).1 (PosToTile ghost.pos).2 }
          | none => { ghost with dir := ⟨0, 0⟩, wantDir := ⟨0, 0⟩ }
      else
        { ghost with
          wantDir := pickDir (walkDirs lvl (PosToTile ghost.pos)) r,
          dir := pickDir (walkDirs lvl (PosToTile ghost.pos)) r,
          pos := TileCenter (PosToTile ghost.pos).1 (PosToTile ghost.pos).2 }

/-- From `intelligence.normalGhostAI`: chase by minimizing the oracle
distance of the candidate neighbor tile, ties broken by the random
draw. -/
def normalGhostAI (ghost : Entity) (dm : DistanceMap) (lvl : Level) (r : ℕ) : Entity :=
  if ¬ NearCenter ghost.pos = true ∧ ¬ ghost.dir = ⟨0, 0⟩ then ghost
  else if (normalOptions dm lvl (PosToTile ghost.pos)).length = 0 then
    if ¬ ghost.dir = ⟨0, 0⟩
        ∧ lvl.CanWalk ((PosToTile ghost.pos).1 + trunc ghost.dir.x)
            ((PosToTile ghost.pos).2 + trunc ghost.dir.y) = true then
      { ghost with pos := TileCenter (PosToTile ghost.pos).1 (PosToTile ghost.pos).2 }
    else { ghost with dir := ⟨0, 0⟩, wantDir := ⟨0, 0⟩ }
  else
    { ghost with
      wantDir := (pickFrom (bestOf (normalOptions dm lvl (PosToTile ghost.pos))) r).dir,
      dir := (pickFrom (bestOf (normalOptions dm lvl (PosToTile ghost.pos))) r).dir,
      pos := TileCenter (PosToTile ghost.pos).1 (PosToTile ghost.pos).2 }

/-- From `intelligence.smartGhostAI`: minimize the dead-end-penalized
score; a cornered smart ghost just stops. -/
def smartGhostAI (ghost : Entity) (dm : DistanceMap) (lvl : Level) (r : ℕ) : Entity :=
  if ¬ NearCenter ghost.pos = true ∧ ¬ ghost.dir = ⟨0, 0⟩ then ghost
  else if (smartOptions dm lvl (PosToTile ghost.pos)).length = 0 then
    { ghost with dir := ⟨0, 0⟩ }
  else
    { ghost with
      wantDir := (pickFrom (bestOf (smartOptions dm lvl (PosToTile ghost.pos))) r).dir,
      dir := (pickFrom (bestOf (smartOptions dm lvl (PosToTile ghost.pos))) r).dir,
      pos := TileCenter (PosToTile ghost.pos).1 (PosToTile ghost.pos).2 }

/-- From `intelligence.geniusGhostAI`: minimize the genius score,
preferring to continue straight among tied-best options. -/
def geniusGhostAI (ghost : Entity) (dm : DistanceMap) (lvl : Level) (r : ℕ) : Entity :=
  if ¬ NearCenter ghost.pos = true ∧ ¬ ghost.dir = ⟨0, 0⟩ then ghost
  else if (geniusOptions dm lvl (PosToTile ghost.pos)).length = 0 then
    { ghost with dir := ⟨0, 0⟩ }
  else
    match (if 1 < (bestOf (geniusOptions dm lvl (PosToTile ghost.pos))).length then
        (bestOf (geniusOptions dm lvl (PosToTile ghost.pos))).find?
          (fun o => o.dir = ghost.dir)
      else none) with
    | some o =>
      { ghost with
        wantDir := o.dir, dir := o.dir,
        pos := TileCenter (PosToTile ghost.pos).1 (PosToTile ghost.pos).2 }
    | none =>
      { ghost with
        wantDir := (pickFrom (bestOf (geniusOptions dm lvl (PosToTile ghost.pos))) r).dir,
        dir := (pickFrom (bestOf (geniusOptions dm lvl (PosToTile ghost.pos))) r).dir,
        pos := TileCenter (PosToTile ghost.pos).1 (PosToTile ghost.pos).2 }

/-- From `intelligence.slowGhostAI`: with probability 0.3 act like the
Dumb policy, otherwise like the Normal one; the coin flip
`rand.Float32() < 0.3` is the explicit `mistake` argument. -/
def slowGhostAI (ghost : Entity) (dm : DistanceMap) (lvl : Level)
    (mistake : Bool) (r : ℕ) : Entity :=
  if ¬ NearCenter ghost.pos = true ∧ ¬ ghost.dir = ⟨0, 0⟩ then ghost
  else if mistake then dumbGhostAI ghost lvl r
  else normalGhostAI ghost dm lvl r

/-- Ghost skill levels, from `config.GhostLevel`. -/
inductive GhostLevel where
  | dumb
  | slow
  | normal
  | smart
  deriving DecidableEq, Repr

/-- From `intelligence.GhostAI`: dispatch on the skill level (the default
branch is unreachable for the four-valued enum but kept as in the
source). -/
def GhostAI (ghost : Entity) (dm : DistanceMap) (lvl : Level)
    (skillLevel : GhostLevel) (mistake : Bool) (r : ℕ) : Entity :=
  match skillLevel with
  | .dumb => dumbGhostAI ghost lvl r
  | .slow => slowGhostAI ghost dm lvl mistake r
  | .normal => normalGhostAI ghost dm lvl r
  | .smart => smartGhostAI ghost dm lvl r

/-- Specification-side definition (from the spec's words, for the turn
gating claim): if an operation changed the agent's direction to a new
non-zero value, then the agent was near its tile center or stopped, the
tile the new direction points to is walkable, and the position was
snapped exactly onto the tile center. -/
def PolicyGateOK (g g2 : Entity) (lvl : Level) : Prop :=
  ¬ g2.dir = g.dir → ¬ g2.dir = ⟨0, 0⟩ →
    (NearCenter g.pos = true ∨ g.dir = ⟨0, 0⟩)
    ∧ lvl.CanWalk ((PosToTile g.pos).1 + trunc g2.dir.x)
        ((PosToTile g.pos).2 + trunc g2.dir.y) = true
    ∧ g2.pos = TileCenter (PosToTile g.pos).1 (PosToTile g.pos).2

/-- The level the game actually plays: `Game.initLevel` and
`Game.resetLevel` always call `model.New(nil)`, which parses
`DefaultLevelData`. -/
def defaultLevel : Level := (Level.New []).getD ⟨[], 0, 0, 0⟩

/-- The win-relevant projection of the `Game` struct: the level, the
running score, the pellets-consumed counter, and whether `gameState` is
`StateWon`. -/
structure GState where
  level : Level
  score : ℕ
  pelletsCollected : ℕ
  won : Bool
  deriving DecidableEq, Repr

/-- State right after `Game.initLevel`: fresh default level, zero
counters, playing. -/
def initState : GState := ⟨defaultLevel, 0, 0, false⟩

/-- External inputs of one tick: where movement put the player, how many
apples the pickup loop collected, whether a ghost caught the player, and
whether the restart key fired. -/
structure TickInput where
  playerTile : ℤ × ℤ
  applesPicked : ℕ
  caught : Bool
  restartKey : Bool
  deriving DecidableEq, Repr

/-- One `Game.Update` tick, projected onto the consumption/win kernel.
In the source order: a won game ignores the tick (its branch only serves
the menu); otherwise `consumePellet` runs at the player's tile
(incrementing `score` and `pelletsCollected` on success),
`checkAppleCollection` adds the collected apples to `score` only, the win
check fires when `pelletsCollected >= TotalPellets` (setting `StateWon`
and returning), then `checkCaught` calls `resetLevel` and the `R` key
calls `initLevel`, both of which rebuild the default level and zero the
counters.  Input, AI, and movement do not touch these fields. -/
def tick (g : GState) (i : TickInput) : GState :=
  if g.won then g
  else
    let res := g.level.ConsumePellet i.playerTile.1 i.playerTile.2
    let score1 := g.score + (if res.1 then 1 else 0) + i.applesPicked
    let pc1 := g.pelletsCollected + (if res.1 then 1 else 0)
    if res.2.totalPellets ≤ pc1 then ⟨res.2, score1, pc1, true⟩
    else if i.caught then initState
    else if i.restartKey then initState
    else ⟨res.2, score1, pc1, false⟩

/-- A whole session from `initLevel`. -/
def run (l : List TickInput) : GState := l.foldl tick initState

/-- The session invariant behind the win condition: the level's pellet
counter always carries the default level's load-time count, collected
plus remaining pellets account for all of them, a playing session still
has a pellet on the board, and a won session has collected them all. -/
def GInv (g : GState) : Prop :=
  g.level.totalPellets = defaultLevel.totalPellets
  ∧ g.pelletsCollected + g.level.remaining = defaultLevel.totalPellets
  ∧ (g.won = false → 0 < g.level.remaining)
  ∧ (g.won = true → defaultLevel.totalPellets ≤ g.pelletsCollected)

/-- One tick input per pellet tile of the default level, in row-major
order: a session that walks the player over every pellet. -/
def pelletInputs : List TickInput :=
  (List.range (11 * 21)).filterMap fun k =>
    if defaultLevel.GetTile ((k % 21 : ℕ) : ℤ) ((k / 21 : ℕ) : ℤ) = Tile.pel then
      some ⟨(((k % 21 : ℕ) : ℤ), ((k / 21 : ℕ) : ℤ)), 0, false, false⟩
    else none

/-- Specification-side definition (from the spec's words, for the BFS
refinement claims): `ReachesIn lvl t n p` holds when there is a path of
exactly `n` 4-connected steps from the target tile `t` to `p` whose every
tile after `t` is walkable. -/
def ReachesIn (lvl : Level) (t : ℕ × ℕ) : ℕ → ℕ × ℕ → Bool
  | 0, p => decide (p = t)
  | n + 1, p =>
      lvl.CanWalk p.1 p.2 && bfsDirs.any fun d =>
        let qx : ℤ := (p.1 : ℤ) + d.1
        let qy : ℤ := (p.2 : ℤ) + d.2
        decide (0 ≤ qx) && decide (0 ≤ qy) && ReachesIn lvl t n (qx.toNat, qy.toNat)

/-- Tile `p` lies within a `w`-by-`h` distance matrix. -/
def inB (w h : ℕ) (p : ℕ × ℕ) : Prop := p.1 < w ∧ p.2 < h

/-- The matrix has exactly `h` rows of exactly `w` entries. -/
def distShape (w h : ℕ) (dist : List (List ℕ)) : Prop :=
  dist.length = h ∧ ∀ row ∈ dist, row.length = w

/-- The loop invariant of the `BuildBFS` queue loop (`dist` is the
distance matrix, `pend` the not-yet-popped tail of the Go queue): the
matrix keeps its shape, the target stays at distance `0`, every finite
label is witnessed by a path of exactly that length, pending nodes are
in-bounds, finite-labelled, duplicate-free, and their labels are
non-decreasing along the queue with spread at most one, settled nodes
(finite label, not pending) never exceed pending labels, and every
walkable in-bounds neighbor of a settled node is labelled within one of
it. -/
def BfsInv (lvl : Level) (w h : ℕ) (t : ℕ × ℕ) (dist : List (List ℕ))
    (pend : List (ℕ × ℕ)) : Prop :=
  distShape w h dist
  ∧ getDist dist t.1 t.2 = 0
  ∧ (∀ p : ℕ × ℕ, inB w h p → getDist dist p.1 p.2 ≤ INF)
  ∧ (∀ p : ℕ × ℕ, inB w h p → getDist dist p.1 p.2 < INF →
      ReachesIn lvl t (getDist dist p.1 p.2) p = true)
  ∧ (∀ p ∈ pend, inB w h p)
  ∧ (∀ p ∈ pend, getDist dist p.1 p.2 < INF)
  ∧ List.Pairwise (fun a b => getDist dist a.1 a.2 ≤ getDist dist b.1 b.2
      ∧ getDist dist b.1 b.2 ≤ getDist dist a.1 a.2 + 1) pend
  ∧ (∀ p : ℕ × ℕ, inB w h p → getDist dist p.1 p.2 < INF → ¬ p ∈ pend →
      ∀ q ∈ pend, getDist dist p.1 p.2 ≤ getDist dist q.1 q.2)
  ∧ (∀ p : ℕ × ℕ, inB w h p → getDist dist p.1 p.2 < INF → ¬ p ∈ pend →
      ∀ d ∈ bfsDirs, ∀ q : ℕ × ℕ,
        (q.1 : ℤ) = p.1 + d.1 → (q.2 : ℤ) = p.2 + d.2 →
        inB w h q → lvl.CanWalk q.1 q.2 = true →
        getDist dist q.1 q.2 ≤ getDist dist p.1 p.2 + 1)
  ∧ pend.Nodup

/-- The invariant of the four-direction relaxation fold while node `cur`
is being processed: the matrix keeps its shape and exactly the freshly
labelled neighbors (`news`) have changed, each set to `cur`'s label plus
one and appended to the queue. -/
def MidInv (lvl : Level) (w h : ℕ) (cur : ℕ × ℕ) (dist0 : List (List ℕ))
    (rest : List (ℕ × ℕ)) (st : List (List ℕ) × List (ℕ × ℕ)) : Prop :=
  distShape w h st.1
  ∧ ∃ news : List (ℕ × ℕ), st.2 = rest ++ news ∧ news.Nodup
    ∧ (∀ q ∈ news, inB w h q ∧ lvl.CanWalk q.1 q.2 = true
        ∧ getDist dist0 q.1 q.2 = INF
        ∧ getDist st.1 q.1 q.2 = getDist dist0 cur.1 cur.2 + 1
        ∧ getDist dist0 cur.1 cur.2 + 1 < INF
        ∧ ¬ q ∈ cur :: rest
        ∧ ∃ d ∈ bfsDirs, (q.1 : ℤ) = cur.1 + d.1 ∧ (q.2 : ℤ) = cur.2 + d.2)
    ∧ (∀ p : ℕ × ℕ, ¬ p ∈ news → getDist st.1 p.1 p.2 = getDist dist0 p.1 p.2)

/-- Specification-side definition: `p` is reachable from the target tile
`t` through 4-connected walkable tiles. -/
def Reachable (lvl : Level) (t p : ℕ × ℕ) : Prop :=
  ∃ n, ReachesIn lvl t n p = true

/-- Specification-side definition: the length of the shortest 4-connected
walkable path from `t` to `p`. -/
def shortestDist (lvl : Level) (t p : ℕ × ℕ) (h : Reachable lvl t p) : ℕ :=
  Nat.find h

/-- One step of a path as taken by `ReachesIn`: `q` is obtained from `p`
by one of the four neighbor offsets, with both coordinates staying
non-negative. -/
def adjStep (p q : ℕ × ℕ) : Bool :=
  bfsDirs.any fun d =>
    decide (0 ≤ (p.1 : ℤ) + d.1) && decide (0 ≤ (p.2 : ℤ) + d.2)
      && decide (q.1 = ((p.1 : ℤ) + d.1).toNat)
      && decide (q.2 = ((p.2 : ℤ) + d.2).toNat)

/-- A path unrolled as the explicit list of its tiles, from the endpoint
down to the target: used for the pigeonhole bound on shortest paths. -/
def chainOk (lvl : Level) (t : ℕ × ℕ) : List (ℕ × ℕ) → Bool
  | [] => false
  | [p] => decide (p = t)
  | p :: q :: rest =>
      lvl.CanWalk p.1 p.2 && adjStep p q && chainOk lvl t (q :: rest)

/-- A 3-by-3 level of nine walkable cells: the room of the spec's
Scenario A. -/
def lvl3 : Level :=
  ⟨[[Tile.empty, Tile.empty, Tile.empty],
    [Tile.empty, Tile.empty, Tile.empty],
    [Tile.empty, Tile.empty, Tile.empty]], 3, 3, 0⟩

/-- A 2-by-1 level with one wall and one walkable cell. -/
def lvlW : Level :=
  ⟨[[Tile.wall, Tile.empty]], 2, 1, 0⟩

/-! Helper lemmas about grid cell access. -/

theorem cellAt_of_mem {l : Level} {x y : ℕ} {row : List Tile} {t : Tile}
    (hy : l.grid.get? y = some row) (hx : row.get? x = some t) :
    l.cellAt x y = t := by
  unfold Level.cellAt
  rw [hy, Option.getD_some, hx, Option.getD_some]

theorem cellAt_ne_wall_entry {l : Level} {x y : ℕ}
    (h : ¬ l.cellAt x y = Tile.wall) :
    ∃ row, l.grid.get? y = some row ∧ row.get? x = some (l.cellAt x y) := by
  cases hy : l.grid.get? y with
  | none =>
    refine absurd ?_ h
    unfold Level.cellAt
    rw [hy]
    rfl
  | some row =>
    cases hx : row.get? x with
    | none =>
      refine absurd ?_ h
      unfold Level.cellAt
      rw [hy, Option.getD_some, hx]
      rfl
    | some t =>
      exact ⟨row, rfl, by rw [cellAt_of_mem hy hx]; exact hx⟩

theorem SetTile_width (l : Level) (x y : ℤ) (t : Tile) :
    (l.SetTile x y t).width = l.width := by
  unfold Level.SetTile; split <;> rfl

theorem SetTile_height (l : Level) (x y : ℤ) (t : Tile) :
    (l.SetTile x y t).height = l.height := by
  unfold Level.SetTile; split <;> rfl

theorem SetTile_totalPellets (l : Level) (x y : ℤ) (t : Tile) :
    (l.SetTile x y t).totalPellets = l.totalPellets := by
  unfold Level.SetTile; split <;> rfl

theorem setCell_read_ne (g : List (List Tile)) (x y x2 y2 : ℕ) (t : Tile)
    (h : ¬ (x2 = x ∧ y2 = y)) :
    ((((setCell g x y t).get? y2).getD []).get? x2).getD Tile.wall
      = (((g.get? y2).getD []).get? x2).getD Tile.wall := by
  unfold setCell
  by_cases hy : y2 = y
  · subst hy
    have hx : x2 ≠ x := fun hx => h ⟨hx, rfl⟩
    rw [List.get?_set_eq]
    cases hg : g.get? y2 with
    | none => simp
    | some row =>
      simp only [Option.map_eq_map, Option.map_some', Option.getD_some]
      rw [List.get?_set_ne _ _ fun he => hx he.symm]
  · rw [List.get?_set_ne _ _ fun he => hy he.symm]

theorem setCell_read_self (g : List (List Tile)) (x y : ℕ) (t : Tile)
    {row : List Tile} (hy : g.get? y = some row) (hx : x < row.length) :
    ((((setCell g x y t).get? y).getD []).get? x).getD Tile.wall = t := by
  unfold setCell
  rw [List.get?_set_eq, hy]
  simp only [Option.map_eq_map, Option.map_some', Option.getD_some]
  rw [List.get?_eq_getElem?, List.getElem?_set_self hx, Option.getD_some]

theorem GetTile_SetTile_self {l : Level} {x y : ℤ} (t : Tile)
    (h : ¬ l.GetTile x y = Tile.wall) :
    (l.SetTile x y t).GetTile x y = t := by
  obtain ⟨g, w, ht, tp⟩ := l
  simp only [Level.GetTile, Level.SetTile] at h ⊢
  by_cases hb : Level.oob ⟨g, w, ht, tp⟩ x y
  · rw [if_pos hb] at h; exact absurd rfl h
  · rw [if_neg hb] at h
    obtain ⟨row, hy, hx⟩ := cellAt_ne_wall_entry h
    have hxlen : x.toNat < row.length := (List.get?_eq_some.mp hx).1
    rw [if_neg hb, if_neg (show ¬ Level.oob ⟨setCell g x.toNat y.toNat t, w, ht, tp⟩ x y from hb)]
    exact setCell_read_self g x.toNat y.toNat t hy hxlen

theorem GetTile_SetTile_other {l : Level} {x y x2 y2 : ℤ} (t : Tile)
    (hne : ¬ (x2 = x ∧ y2 = y)) :
    (l.SetTile x y t).GetTile x2 y2 = l.GetTile x2 y2 := by
  obtain ⟨g, w, ht, tp⟩ := l
  simp only [Level.GetTile, Level.SetTile]
  by_cases hb : Level.oob ⟨g, w, ht, tp⟩ x y
  · rw [if_pos hb]
  · rw [if_neg hb]
    by_cases hb2 : Level.oob ⟨g, w, ht, tp⟩ x2 y2
    · rw [if_pos hb2,
        if_pos (show Level.oob ⟨setCell g x.toNat y.toNat t, w, ht, tp⟩ x2 y2 from hb2)]
    · rw [if_neg hb2,
        if_neg (show ¬ Level.oob ⟨setCell g x.toNat y.toNat t, w, ht, tp⟩ x2 y2 from hb2)]
      have h0x : (0 : ℤ) ≤ x := le_of_not_lt fun hc => hb (Or.inl hc)
      have h0y : (0 : ℤ) ≤ y := le_of_not_lt fun hc => hb (Or.inr (Or.inl hc))
      have h0x2 : (0 : ℤ) ≤ x2 := le_of_not_lt fun hc => hb2 (Or.inl hc)
      have h0y2 : (0 : ℤ) ≤ y2 := le_of_not_lt fun hc => hb2 (Or.inr (Or.inl hc))
      refine setCell_read_ne _ _ _ _ _ _ fun hc => hne ⟨?_, ?_⟩
      · rw [← Int.toNat_of_nonneg h0x2, ← Int.toNat_of_nonneg h0x, hc.1]
      · rw [← Int.toNat_of_nonneg h0y2, ← Int.toNat_of_nonneg h0y, hc.2]

/-- C9: out-of-bounds queries resolve to sentinels, never errors.  For
every integer pair `(x, y)` outside the grid bounds (the grid and the
distance map sharing the level's dimensions, as in the game),
`CanWalk` is `false`, `GetTile` is `Wall`, and `GetDistance` is the `INF`
sentinel; all three are total Lean functions, so no input can fault. -/
theorem C9_oob_sentinels (l : Level) (dm : DistanceMap)
    (hw : dm.width = l.width) (hh : dm.height = l.height) (x y : ℤ)
    (hoob : l.oob x y) :
    l.CanWalk x y = false ∧ l.GetTile x y = Tile.wall
      ∧ dm.GetDistance x y = INF := by
  have hd : x < 0 ∨ y < 0 ∨ (dm.width : ℤ) ≤ x ∨ (dm.height : ℤ) ≤ y := by
    rw [hw, hh]; exact hoob
  refine ⟨?_, ?_, ?_⟩
  · unfold Level.CanWalk; rw [if_pos hoob]
  · unfold Level.GetTile; rw [if_pos hoob]
  · unfold DistanceMap.GetDistance; rw [if_pos hd]

/-- Witness for C9 at a concrete input: a 1×1 level queried at `(-1, 2)`. -/
theorem C9_oob_sentinels_witness :
    Level.CanWalk ⟨[[Tile.empty]], 1, 1, 0⟩ (-1) 2 = false
      ∧ Level.GetTile ⟨[[Tile.empty]], 1, 1, 0⟩ (-1) 2 = Tile.wall
      ∧ DistanceMap.GetDistance (NewDistanceMap 1 1) (-1) 2 = INF :=
  C9_oob_sentinels ⟨[[Tile.empty]], 1, 1, 0⟩ (NewDistanceMap 1 1) rfl rfl
    (-1) 2 (by decide)

/-- C10: a freshly constructed `DistanceMap` (before any `BuildBFS`)
reports distance `0`, not the `INF` sentinel, at every in-bounds tile:
`make` zero-fills the matrix. -/
theorem C10_fresh_map_zero (w h : ℕ) (x y : ℤ)
    (hx : 0 ≤ x) (hy : 0 ≤ y) (hxw : x < (w : ℤ)) (hyh : y < (h : ℤ)) :
    (NewDistanceMap w h).GetDistance x y = 0 ∧ (0 : ℕ) ≠ INF := by
  refine ⟨?_, by decide⟩
  unfold DistanceMap.GetDistance NewDistanceMap
  rw [if_neg (by push_neg; exact ⟨hx, hy, hxw, hyh⟩)]
  have hyn : y.toNat < h := by omega
  have hxn : x.toNat < w := by omega
  show ((((List.replicate h (List.replicate w 0)).get? y.toNat).getD []).get? x.toNat).getD 0 = 0
  rw [List.get?_eq_getElem? (List.replicate h (List.replicate w 0)) y.toNat,
    List.getElem?_replicate, if_pos hyn, Option.getD_some,
    List.get?_eq_getElem?, List.getElem?_replicate, if_pos hxn, Option.getD_some]

/-- Witness for C10 at a concrete input: the fresh 3×2 map at tile
`(2, 1)`. -/
theorem C10_fresh_map_zero_witness :
    (NewDistanceMap 3 2).GetDistance 2 1 = 0 ∧ (0 : ℕ) ≠ INF :=
  C10_fresh_map_zero 3 2 2 1 (by decide) (by decide) (by decide) (by decide)

/-- C4: consume contract.  `ConsumePellet (x, y)` returns `true` and sets
the cell to `Empty` exactly when the cell holds a pellet; on any other
cell (empty, wall, or out of bounds) it returns `false` and leaves the
level unchanged; a repeated call on the same cell always returns
`false`. -/
theorem C4_consume_contract (l : Level) (x y : ℤ) :
    ((l.ConsumePellet x y).1 = true ↔ l.GetTile x y = Tile.pel)
    ∧ (l.GetTile x y = Tile.pel →
        (l.ConsumePellet x y).2.GetTile x y = Tile.empty
        ∧ ∀ x2 y2 : ℤ, ¬ (x2 = x ∧ y2 = y) →
            (l.ConsumePellet x y).2.GetTile x2 y2 = l.GetTile x2 y2)
    ∧ (¬ l.GetTile x y = Tile.pel → (l.ConsumePellet x y).2 = l)
    ∧ ((l.ConsumePellet x y).2.ConsumePellet x y).1 = false := by
  by_cases hp : l.GetTile x y = Tile.pel
  · have hnw : ¬ l.GetTile x y = Tile.wall := by rw [hp]; decide
    have hc : l.ConsumePellet x y = (true, l.SetTile x y Tile.empty) := by
      unfold Level.ConsumePellet; rw [if_pos hp]
    refine ⟨by rw [hc]; simp [hp], fun _ => ⟨?_, ?_⟩, fun hn => absurd hp hn, ?_⟩
    · rw [hc]; exact GetTile_SetTile_self Tile.empty hnw
    · intro x2 y2 hne; rw [hc]; exact GetTile_SetTile_other Tile.empty hne
    · rw [hc]
      have : (l.SetTile x y Tile.empty).GetTile x y = Tile.empty :=
        GetTile_SetTile_self Tile.empty hnw
      unfold Level.ConsumePellet
      rw [if_neg (by rw [this]; decide)]
  · have hc : l.ConsumePellet x y = (false, l) := by
      unfold Level.ConsumePellet; rw [if_neg hp]
    refine ⟨by rw [hc]; simp [hp], fun h => absurd h hp, fun _ => by rw [hc], ?_⟩
    rw [hc]
    unfold Level.ConsumePellet
    rw [if_neg hp]

/-- Witness for C4 at a concrete input: a 1×1 pellet level; the first
consume succeeds and empties the cell, the second returns `false`. -/
theorem C4_consume_contract_witness :
    (Level.ConsumePellet ⟨[[Tile.pel]], 1, 1, 1⟩ 0 0).1 = true
      ∧ ((Level.ConsumePellet ⟨[[Tile.pel]], 1, 1, 1⟩ 0 0).2.GetTile 0 0 = Tile.empty) :=
  ⟨(C4_consume_contract ⟨[[Tile.pel]], 1, 1, 1⟩ 0 0).1.mpr (by decide),
    ((C4_consume_contract ⟨[[Tile.pel]], 1, 1, 1⟩ 0 0).2.1 (by decide)).1⟩

/-! Helper lemmas about the pellet count of a grid. -/

theorem sum_set_nat {l : List ℕ} {y : ℕ} {v : ℕ} (h : l.get? y = some v) (w : ℕ) :
    (l.set y w).sum + v = l.sum + w := by
  induction l generalizing y with
  | nil => simp at h
  | cons a l ih =>
    cases y with
    | zero =>
      simp only [List.get?] at h
      injection h with h
      simp [List.set, h]
      omega
    | succ y =>
      simp only [List.get?] at h
      have := ih h
      simp [List.set, List.sum_cons]
      omega

theorem count_set_pel {row : List Tile} {x : ℕ}
    (h : row.get? x = some Tile.pel) :
    (row.set x Tile.empty).count Tile.pel + 1 = row.count Tile.pel := by
  obtain ⟨hlt, hget⟩ := List.get?_eq_some.mp h
  have hx : row[x] = Tile.pel := by
    rw [← hget]; simp [List.get_eq_getElem]
  rw [List.count_set _ _ _ _ hlt]
  have hpos : 0 < row.count Tile.pel := by
    refine List.count_pos_iff_mem.mpr ?_
    rw [← hx]; exact List.getElem_mem hlt
  simp [hx]
  omega

theorem countPellets_setCell {g : List (List Tile)} {x y : ℕ} {row : List Tile}
    (hy : g.get? y = some row) (hx : row.get? x = some Tile.pel) :
    countPellets (setCell g x y Tile.empty) + 1 = countPellets g := by
  unfold setCell countPellets
  rw [hy, Option.getD_some, List.map_set]
  have hsum := sum_set_nat (l := g.map (List.count Tile.pel)) (y := y)
    (v := row.count Tile.pel) (by rw [List.get?_map, hy]; rfl)
    ((row.set x Tile.empty).count Tile.pel)
  have hcount := count_set_pel hx
  omega

theorem consume_remaining {l : Level} {x y : ℤ}
    (h : (l.ConsumePellet x y).1 = true) :
    (l.ConsumePellet x y).2.remaining + 1 = l.remaining := by
  by_cases hp : l.GetTile x y = Tile.pel
  · have hc : l.ConsumePellet x y = (true, l.SetTile x y Tile.empty) := by
      unfold Level.ConsumePellet; rw [if_pos hp]
    rw [hc]
    unfold Level.GetTile at hp
    by_cases hb : l.oob x y
    · rw [if_pos hb] at hp; exact absurd hp (by decide)
    · rw [if_neg hb] at hp
      obtain ⟨row, hy, hx⟩ := cellAt_ne_wall_entry (by rw [hp]; decide)
      rw [hp] at hx
      show (Level.SetTile l x y Tile.empty).remaining + 1 = l.remaining
      unfold Level.SetTile
      rw [if_neg hb]
      show countPellets (setCell l.grid x.toNat y.toNat Tile.empty) + 1 = countPellets l.grid
      exact countPellets_setCell hy hx
  · have hc : l.ConsumePellet x y = (false, l) := by
      unfold Level.ConsumePellet; rw [if_neg hp]
    rw [hc] at h
    simp at h

theorem consume_totalPellets (l : Level) (x y : ℤ) :
    (l.ConsumePellet x y).2.totalPellets = l.totalPellets := by
  unfold Level.ConsumePellet
  split
  · exact SetTile_totalPellets l x y Tile.empty
  · rfl

theorem consume_false_eq {l : Level} {x y : ℤ}
    (h : (l.ConsumePellet x y).1 = false) :
    (l.ConsumePellet x y).2 = l := by
  by_cases hp : l.GetTile x y = Tile.pel
  · have hc : l.ConsumePellet x y = (true, l.SetTile x y Tile.empty) := by
      unfold Level.ConsumePellet; rw [if_pos hp]
    rw [hc] at h; simp at h
  · unfold Level.ConsumePellet; rw [if_neg hp]

theorem consume_remaining_le (l : Level) (x y : ℤ) :
    (l.ConsumePellet x y).2.remaining ≤ l.remaining := by
  cases hb : (l.ConsumePellet x y).1 with
  | true => have := consume_remaining hb; omega
  | false => rw [consume_false_eq hb]

/-- Apply a whole sequence of `ConsumePellet` calls. -/
theorem foldl_consume_totalPellets (ops : List (ℤ × ℤ)) (l : Level) :
    (ops.foldl (fun a p => (a.ConsumePellet p.1 p.2).2) l).totalPellets
      = l.totalPellets := by
  induction ops generalizing l with
  | nil => rfl
  | cons p ops ih =>
    rw [List.foldl_cons, ih]
    exact consume_totalPellets l p.1 p.2

theorem foldl_consume_remaining (ops : List (ℤ × ℤ)) (l : Level) :
    (ops.foldl (fun a p => (a.ConsumePellet p.1 p.2).2) l).remaining
      ≤ l.remaining := by
  induction ops generalizing l with
  | nil => exact le_refl _
  | cons p ops ih =>
    rw [List.foldl_cons]
    exact le_trans (ih _) (consume_remaining_le l p.1 p.2)

/-- C8 counterexample: the claim reads the pellet counter `TotalPellets`
as decreasing when a pellet is consumed, but `ConsumePellet` never writes
that field: on a 1×1 level holding one pellet the call succeeds yet
`TotalPellets` does not decrease. -/
theorem C8_counterexample :
    (Level.ConsumePellet ⟨[[Tile.pel]], 1, 1, 1⟩ 0 0).1 = true
      ∧ ¬ (Level.ConsumePellet ⟨[[Tile.pel]], 1, 1, 1⟩ 0 0).2.totalPellets
          < (Level.totalPellets ⟨[[Tile.pel]], 1, 1, 1⟩) := by
  decide

/-- C8 as amended: `TotalPellets` is invariant under `ConsumePellet` (so
after any sequence of calls it equals — in particular never exceeds — its
load-time value, and it never increases); what does decrease is the count
of pellet cells remaining in the grid: by exactly one on each successful
consume, and not at all on a failed one. -/
theorem C8_totalPellets_monotone (l : Level) (x y : ℤ) (ops : List (ℤ × ℤ)) :
    (l.ConsumePellet x y).2.totalPellets = l.totalPellets
    ∧ ((l.ConsumePellet x y).1 = true →
        (l.ConsumePellet x y).2.remaining + 1 = l.remaining)
    ∧ ((l.ConsumePellet x y).1 = false → (l.ConsumePellet x y).2 = l)
    ∧ (ops.foldl (fun a p => (a.ConsumePellet p.1 p.2).2) l).totalPellets
        = l.totalPellets
    ∧ (ops.foldl (fun a p => (a.ConsumePellet p.1 p.2).2) l).remaining
        ≤ l.remaining :=
  ⟨consume_totalPellets l x y, fun h => consume_remaining h,
    fun h => consume_false_eq h, foldl_consume_totalPellets ops l,
    foldl_consume_remaining ops l⟩

/-- Witness for the amended C8 at a concrete input: consuming the pellet
of a 1×1 level leaves `TotalPellets` at 1 and drops `remaining` to 0. -/
theorem C8_totalPellets_monotone_witness :
    (Level.ConsumePellet ⟨[[Tile.pel]], 1, 1, 1⟩ 0 0).2.totalPellets = 1
      ∧ (Level.ConsumePellet ⟨[[Tile.pel]], 1, 1, 1⟩ 0 0).2.remaining + 1 = 1 :=
  ⟨(C8_totalPellets_monotone ⟨[[Tile.pel]], 1, 1, 1⟩ 0 0 []).1,
    (C8_totalPellets_monotone ⟨[[Tile.pel]], 1, 1, 1⟩ 0 0 []).2.1 (by decide)⟩

/-! Helper lemmas about `mapOpt`, for the level parser. -/

theorem mapOpt_isSome {a b : Type} (f : a → Option b) (l : List a) :
    (mapOpt f l).isSome = true ↔ ∀ x ∈ l, (f x).isSome = true := by
  induction l with
  | nil => simp [mapOpt]
  | cons x l ih =>
    cases hf : f x with
    | none => simp [mapOpt, hf]
    | some v =>
      cases hl : mapOpt f l with
      | none => simp [mapOpt, hf, hl, ← ih]
      | some vs => simp [mapOpt, hf, hl, ← ih]

theorem mapOpt_length {a b : Type} {f : a → Option b} :
    ∀ {l : List a} {l2 : List b}, mapOpt f l = some l2 → l2.length = l.length := by
  intro l
  induction l with
  | nil =>
    intro l2 h
    unfold mapOpt at h
    injection h with h
    rw [← h]
    rfl
  | cons x l ih =>
    intro l2 h
    unfold mapOpt at h
    cases hf : f x with
    | none => rw [hf] at h; simp at h
    | some v =>
      rw [hf] at h
      cases hl : mapOpt f l with
      | none => rw [hl] at h; simp at h
      | some tl =>
        rw [hl] at h
        simp only [Option.some.injEq] at h
        rw [← h]
        simp [ih hl]

theorem mapOpt_mem {a b : Type} {f : a → Option b} :
    ∀ {l : List a} {l2 : List b}, mapOpt f l = some l2 →
      ∀ v ∈ l2, ∃ x ∈ l, f x = some v := by
  intro l
  induction l with
  | nil =>
    intro l2 h v hv
    unfold mapOpt at h
    injection h with h
    rw [← h] at hv
    simp at hv
  | cons x l ih =>
    intro l2 h v hv
    unfold mapOpt at h
    cases hf : f x with
    | none => rw [hf] at h; simp at h
    | some w =>
      rw [hf] at h
      cases hl : mapOpt f l with
      | none => rw [hl] at h; simp at h
      | some tl =>
        rw [hl] at h
        simp only [Option.some.injEq] at h
        rw [← h] at hv
        rcases List.mem_cons.mp hv with hv | hv
        · exact ⟨x, List.mem_cons_self x l, by rw [hf, hv]⟩
        · obtain ⟨x2, hx2, hfx2⟩ := ih hl v hv
          exact ⟨x2, List.mem_cons_of_mem x hx2, hfx2⟩

theorem rowTiles_isSome (w : ℕ) (row : List Char) :
    (rowTiles w row).isSome = true ↔ w ≤ row.length := by
  unfold rowTiles
  rw [mapOpt_isSome]
  constructor
  · intro h
    by_contra hlt
    push_neg at hlt
    have := h row.length (List.mem_range.mpr hlt)
    rw [List.get?_eq_none.mpr (le_refl _)] at this
    simp at this
  · intro hle x hx
    have hxlt : x < row.length := lt_of_lt_of_le (List.mem_range.mp hx) hle
    rw [List.get?_eq_get hxlt]
    rfl

theorem rowTiles_length {w : ℕ} {row : List Char} {ts : List Tile}
    (h : rowTiles w row = some ts) : ts.length = w := by
  unfold rowTiles at h
  rw [mapOpt_length h]
  exact List.length_range w

theorem New_eq (rows : List (List Char)) (hne : ¬ rows.length = 0) :
    Level.New rows =
      match mapOpt (rowTiles (rows.headD []).length) rows with
      | none => none
      | some g => some ⟨g, (rows.headD []).length, rows.length, countPellets g⟩ := by
  unfold Level.New
  rw [if_neg hne]

/-- C7 counterexample: the claim calls an empty row list a fatal load
error producing no level, but `model.New` substitutes the built-in
default data for an empty input and happily returns a 21×11 level. -/
theorem C7_counterexample :
    (Level.New []).isSome = true
      ∧ ((Level.New []).getD ⟨[], 0, 0, 0⟩).width = 21
      ∧ ((Level.New []).getD ⟨[], 0, 0, 0⟩).height = 11 := by
  decide

/-- C7 as amended: on an empty row list `model.New` silently substitutes
the default level instead of failing; on a non-empty row list it fails
fast (an index panic, producing no level) exactly when some row is
shorter than row 0, and on success the grid is rectangular with the width
of row 0 — rows longer than row 0 are silently truncated to it. -/
theorem C7_fatal_load (rows : List (List Char)) (hne : rows ≠ []) :
    ((Level.New rows).isSome = true ↔
      ∀ row ∈ rows, (rows.headD []).length ≤ row.length)
    ∧ (∀ lvl, Level.New rows = some lvl →
        lvl.width = (rows.headD []).length
        ∧ lvl.height = rows.length
        ∧ lvl.grid.length = rows.length
        ∧ ∀ r ∈ lvl.grid, r.length = lvl.width) := by
  have hlen : ¬ rows.length = 0 := fun h => hne (List.length_eq_zero.mp h)
  rw [New_eq rows hlen]
  constructor
  · cases hm : mapOpt (rowTiles (rows.headD []).length) rows with
    | none =>
      simp only [Option.isSome_none, Bool.false_eq_true, false_iff]
      intro hall
      have hs : (mapOpt (rowTiles (rows.headD []).length) rows).isSome = true := by
        rw [mapOpt_isSome]
        intro row hrow
        exact (rowTiles_isSome _ row).mpr (hall row hrow)
      rw [hm] at hs
      simp at hs
    | some g =>
      simp only [Option.isSome_some, true_iff]
      intro row hrow
      have hs : (mapOpt (rowTiles (rows.headD []).length) rows).isSome = true := by
        rw [hm]; rfl
      rw [mapOpt_isSome] at hs
      exact (rowTiles_isSome _ row).mp (hs row hrow)
  · intro lvl hlvl
    cases hm : mapOpt (rowTiles (rows.headD []).length) rows with
    | none => rw [hm] at hlvl; simp at hlvl
    | some g =>
      rw [hm] at hlvl
      simp only [Option.some.injEq] at hlvl
      rw [← hlvl]
      refine ⟨rfl, rfl, mapOpt_length hm, ?_⟩
      intro r hr
      obtain ⟨row, _, hrow⟩ := mapOpt_mem hm r hr
      exact rowTiles_length hrow

/-- Witness for the amended C7 at concrete inputs: `["#", "##"]` parses
(the longer row is truncated to width 1). -/
theorem C7_fatal_load_witness :
    (Level.New [['#'], ['#', '#']]).isSome = true :=
  (C7_fatal_load [['#'], ['#', '#']] (by decide)).1.mpr (by decide)

/-! Helper lemmas for evaluating the physics on concrete positions
(`ℚ` arithmetic is decided by `norm_num`, not by kernel reduction). -/

theorem trunc_eq_floor (q : ℚ) (h : 0 ≤ q) : trunc q = ⌊q⌋ := by
  unfold trunc
  rw [Rat.floor_def]
  exact Int.tdiv_eq_ediv (Rat.num_nonneg.mpr h) (Int.ofNat_nonneg q.den)

theorem PosToTile_eval {qx qy : ℚ} {tx ty : ℤ}
    (hx0 : 0 ≤ qx) (hy0 : 0 ≤ qy) (htx : 0 ≤ tx) (hty : 0 ≤ ty)
    (hx1 : (24 * tx : ℚ) ≤ qx) (hx2 : qx < 24 * tx + 24)
    (hy1 : (24 * ty : ℚ) ≤ qy) (hy2 : qy < 24 * ty + 24) :
    PosToTile ⟨qx, qy⟩ = (tx, ty) := by
  unfold PosToTile TileSize
  have hfx : trunc qx = ⌊qx⌋ := trunc_eq_floor _ hx0
  have hfy : trunc qy = ⌊qy⌋ := trunc_eq_floor _ hy0
  have hbx1 : 24 * tx ≤ ⌊qx⌋ := Int.le_floor.mpr (by push_cast; linarith)
  have hbx2 : ⌊qx⌋ < 24 * tx + 24 := Int.floor_lt.mpr (by push_cast; linarith)
  have hby1 : 24 * ty ≤ ⌊qy⌋ := Int.le_floor.mpr (by push_cast; linarith)
  have hby2 : ⌊qy⌋ < 24 * ty + 24 := Int.floor_lt.mpr (by push_cast; linarith)
  have h0x : 0 ≤ ⌊qx⌋ := Int.floor_nonneg.mpr hx0
  have h0y : 0 ≤ ⌊qy⌋ := Int.floor_nonneg.mpr hy0
  show (_, _) = (tx, ty)
  rw [hfx, hfy, Int.tdiv_eq_ediv h0x (by norm_num), Int.tdiv_eq_ediv h0y (by norm_num)]
  refine Prod.ext ?_ ?_ <;> simp only <;> omega

theorem NearCenter_iff (pos : Vec) :
    NearCenter pos = true ↔
      |pos.x - (TileCenter (PosToTile pos).1 (PosToTile pos).2).x| ≤ 4
      ∧ |pos.y - (TileCenter (PosToTile pos).1 (PosToTile pos).2).y| ≤ 4 := by
  unfold NearCenter
  exact decide_eq_true_iff

theorem AtCenter_iff (pos : Vec) :
    AtCenter pos = true ↔
      |pos.x - (TileCenter (PosToTile pos).1 (PosToTile pos).2).x| ≤ 1
      ∧ |pos.y - (TileCenter (PosToTile pos).1 (PosToTile pos).2).y| ≤ 1 := by
  unfold AtCenter
  exact decide_eq_true_iff

theorem VeryNearCenter_iff (pos : Vec) :
    VeryNearCenter pos = true ↔
      |pos.x - (TileCenter (PosToTile pos).1 (PosToTile pos).2).x| ≤ 2
      ∧ |pos.y - (TileCenter (PosToTile pos).1 (PosToTile pos).2).y| ≤ 2 := by
  unfold VeryNearCenter
  exact decide_eq_true_iff

/-- C2: movement advance and rejection.  For an entity with a non-zero
direction (and no pending turn request, which the separately specified
turn gating would consume first), `StepMove` computes
`next = pos + dir * speed` and accepts the move — position becomes
`next`, direction unchanged — exactly when the hitbox test passes;
otherwise it snaps each axis the direction moves on back to the current
tile's center, leaves the other axis unchanged, and zeroes the direction.
The hitbox test passes iff all four corners of the square of side
`0.8 * TileSize` centered at `next` lie on walkable tiles. -/
theorem C2_step_advance (e : Entity) (lvl : Level)
    (hw : e.wantDir = e.dir) (hd : ¬ e.dir = ⟨0, 0⟩) :
    (StepMove e lvl =
      if CanMoveTo (e.pos.Add (e.dir.Mul e.speed)) lvl = true then
        { e with pos := e.pos.Add (e.dir.Mul e.speed) }
      else
        { e with
          pos := ⟨if ¬ e.dir.x = 0 then
                    (TileCenter (PosToTile e.pos).1 (PosToTile e.pos).2).x
                  else e.pos.x,
                  if ¬ e.dir.y = 0 then
                    (TileCenter (PosToTile e.pos).1 (PosToTile e.pos).2).y
                  else e.pos.y⟩,
          dir := ⟨0, 0⟩ })
    ∧ (CanMoveTo (e.pos.Add (e.dir.Mul e.speed)) lvl = true ↔
        ∀ corner ∈
          [ (⟨(e.pos.Add (e.dir.Mul e.speed)).x - 48/5, (e.pos.Add (e.dir.Mul e.speed)).y - 48/5⟩ : Vec),
            ⟨(e.pos.Add (e.dir.Mul e.speed)).x + 48/5, (e.pos.Add (e.dir.Mul e.speed)).y - 48/5⟩,
            ⟨(e.pos.Add (e.dir.Mul e.speed)).x - 48/5, (e.pos.Add (e.dir.Mul e.speed)).y + 48/5⟩,
            ⟨(e.pos.Add (e.dir.Mul e.speed)).x + 48/5, (e.pos.Add (e.dir.Mul e.speed)).y + 48/5⟩ ],
          lvl.CanWalk (PosToTile corner).1 (PosToTile corner).2 = true) := by
  constructor
  · have ht : stepTurn e lvl = e := by
      unfold stepTurn
      exact if_neg (fun hcon => hcon.1 hw)
    unfold StepMove
    rw [ht]
    unfold stepAdvance
    rw [if_neg hd]
    by_cases hc : CanMoveTo (e.pos.Add (e.dir.Mul e.speed)) lvl = true
    · rw [if_neg (not_not_intro hc), if_pos hc]
    · rw [if_pos hc, if_neg hc]
  · unfold CanMoveTo
    simp only [List.all_cons, List.all_nil, Bool.and_true, Bool.and_eq_true,
      List.mem_cons, List.not_mem_nil, or_false, forall_eq_or_imp, forall_eq]
    have harith : (TileSize : ℚ) * (8 / 10) / 2 = 48 / 5 := by
      rw [TileSize]; norm_num
    rw [harith]

/-- Witness for C2 at a concrete input: in a 3×1 open corridor, an agent
at the center of the middle tile moving right with speed 2 advances to
`(38, 12)`. -/
theorem C2_step_advance_witness :
    StepMove ⟨⟨36, 12⟩, ⟨1, 0⟩, ⟨1, 0⟩, 2⟩
        ⟨[[Tile.empty, Tile.empty, Tile.empty]], 3, 1, 0⟩
      = ⟨⟨38, 12⟩, ⟨1, 0⟩, ⟨1, 0⟩, 2⟩ := by
  have hd : ¬ (⟨1, 0⟩ : Vec) = ⟨0, 0⟩ := by
    intro h
    have := congrArg Vec.x h
    norm_num at this
  have hC := C2_step_advance ⟨⟨36, 12⟩, ⟨1, 0⟩, ⟨1, 0⟩, 2⟩
    ⟨[[Tile.empty, Tile.empty, Tile.empty]], 3, 1, 0⟩ rfl hd
  have hnext : Vec.Add ⟨36, 12⟩ (Vec.Mul ⟨1, 0⟩ 2) = (⟨38, 12⟩ : Vec) := by
    unfold Vec.Add Vec.Mul
    norm_num
  have hcan : CanMoveTo (Vec.Add ⟨36, 12⟩ (Vec.Mul ⟨1, 0⟩ 2))
      ⟨[[Tile.empty, Tile.empty, Tile.empty]], 3, 1, 0⟩ = true := by
    refine hC.2.mpr ?_
    intro corner hc
    have h1 : PosToTile ⟨(38 : ℚ) - 48/5, (12 : ℚ) - 48/5⟩ = ((1 : ℤ), (0 : ℤ)) :=
      PosToTile_eval (by norm_num) (by norm_num) (by norm_num) (by norm_num)
        (by norm_num) (by norm_num) (by norm_num) (by norm_num)
    have h2 : PosToTile ⟨(38 : ℚ) + 48/5, (12 : ℚ) - 48/5⟩ = ((1 : ℤ), (0 : ℤ)) :=
      PosToTile_eval (by norm_num) (by norm_num) (by norm_num) (by norm_num)
        (by norm_num) (by norm_num) (by norm_num) (by norm_num)
    have h3 : PosToTile ⟨(38 : ℚ) - 48/5, (12 : ℚ) + 48/5⟩ = ((1 : ℤ), (0 : ℤ)) :=
      PosToTile_eval (by norm_num) (by norm_num) (by norm_num) (by norm_num)
        (by norm_num) (by norm_num) (by norm_num) (by norm_num)
    have h4 : PosToTile ⟨(38 : ℚ) + 48/5, (12 : ℚ) + 48/5⟩ = ((1 : ℤ), (0 : ℤ)) :=
      PosToTile_eval (by norm_num) (by norm_num) (by norm_num) (by norm_num)
        (by norm_num) (by norm_num) (by norm_num) (by norm_num)
    have hw : Level.CanWalk ⟨[[Tile.empty, Tile.empty, Tile.empty]], 3, 1, 0⟩ 1 0 = true := by
      decide
    simp only [hnext, List.mem_cons, List.not_mem_nil, or_false] at hc
    rcases hc with hc | hc | hc | hc <;> rw [hc]
    · rw [h1]; exact hw
    · rw [h2]; exact hw
    · rw [h3]; exact hw
    · rw [h4]; exact hw
  rw [hC.1, if_pos hcan, hnext]

/-! Helper lemmas for the ghost policies: every picked direction comes
from the walkable candidate list. -/

theorem getD_mem {α : Type} {l : List α} (h : ¬ l = []) (i : ℕ) (d : α)
    (hi : i < l.length) : l.getD i d ∈ l := by
  rw [List.getD_eq_getElem?_getD, List.getElem?_eq_getElem hi]
  exact List.getElem_mem hi

theorem pickFrom_mem {l : List Candidate} (h : ¬ l = []) (r : ℕ) :
    pickFrom l r ∈ l := by
  unfold pickFrom
  exact getD_mem h _ _ (Nat.mod_lt _ (List.length_pos.mpr h))

theorem pickDir_mem {l : List Vec} (h : ¬ l = []) (r : ℕ) :
    pickDir l r ∈ l := by
  unfold pickDir
  exact getD_mem h _ _ (Nat.mod_lt _ (List.length_pos.mpr h))

theorem firstWalkable_spec {lvl : Level} {tx ty : ℤ} {d : Vec}
    (h : firstWalkable lvl tx ty = some d) :
    lvl.CanWalk (tx + trunc d.x) (ty + trunc d.y) = true := by
  unfold firstWalkable at h
  simpa using List.find?_some h

theorem walkDirs_mem {lvl : Level} {t : ℤ × ℤ} {d : Vec}
    (h : d ∈ walkDirs lvl t) :
    lvl.CanWalk (t.1 + trunc d.x) (t.2 + trunc d.y) = true :=
  (List.mem_filter.mp h).2

theorem mem_scored {lvl : Level} {t : ℤ × ℤ} {f : Vec → ℤ} {c : Candidate}
    (h : c ∈ (walkDirs lvl t).map fun d => (⟨d, f d⟩ : Candidate)) :
    c.dir ∈ walkDirs lvl t := by
  obtain ⟨d, hd, hc⟩ := List.mem_map.mp h
  rw [← hc]
  exact hd

theorem bestOf_sub {options : List Candidate} {c : Candidate}
    (h : c ∈ bestOf options) : c ∈ options :=
  (List.mem_filter.mp h).1

/-- The turn-gating facts for `TryTurn`: any direction change implies the
position was within the 2px tolerance, the neighbor is walkable, the new
direction is the non-zero request, and the position snapped to the tile
center. -/
theorem tryTurn_gate (e : Entity) (want : Vec) (lvl : Level)
    (h1 : ¬ (TryTurn e want lvl).dir = e.dir) :
    VeryNearCenter e.pos = true ∧ CanTurn e.pos want lvl = true
    ∧ ¬ want = ⟨0, 0⟩ ∧ (TryTurn e want lvl).dir = want
    ∧ (TryTurn e want lvl).pos
        = TileCenter (PosToTile e.pos).1 (PosToTile e.pos).2 := by
  unfold TryTurn at h1 ⊢
  by_cases h0 : want.x = 0 ∧ want.y = 0
  · rw [if_pos h0] at h1; exact absurd rfl h1
  · rw [if_neg h0] at h1 ⊢
    by_cases he : want = e.dir
    · rw [if_pos he] at h1; exact absurd rfl h1
    · rw [if_neg he] at h1 ⊢
      by_cases hc : ¬ CanTurn e.pos want lvl = true
      · rw [if_pos hc] at h1; exact absurd rfl h1
      · rw [if_neg hc] at h1 ⊢
        by_cases hv : VeryNearCenter e.pos = true
        · rw [if_pos hv]
          refine ⟨hv, not_not.mp hc, ?_, rfl, rfl⟩
          intro hww
          exact h0 (by rw [hww]; exact ⟨rfl, rfl⟩)
        · rw [if_neg hv] at h1; exact absurd rfl h1

/-- The turn-gating facts for the in-step turn of `StepMove`: a change to
a new non-zero direction implies the position was within the in-step
tolerance, the neighbor in the requested direction is walkable, and the
final position is the snapped tile center advanced by one step. -/
theorem stepMove_gate (e : Entity) (lvl : Level)
    (h1 : ¬ (StepMove e lvl).dir = e.dir) (h2 : ¬ (StepMove e lvl).dir = ⟨0, 0⟩) :
    (AtCenter e.pos = true ∨ NearCenter e.pos = true)
    ∧ CanTurn e.pos e.wantDir lvl = true
    ∧ (StepMove e lvl).dir = e.wantDir
    ∧ (StepMove e lvl).pos
        = (TileCenter (PosToTile e.pos).1 (PosToTile e.pos).2).Add
            (e.wantDir.Mul e.speed) := by
  unfold StepMove at h1 h2 ⊢
  by_cases hturn : ¬ e.wantDir = e.dir ∧ CanTurn e.pos e.wantDir lvl = true
      ∧ (AtCenter e.pos = true ∨ NearCenter e.pos = true)
  · have ht : stepTurn e lvl =
        { e with
          dir := e.wantDir,
          pos := TileCenter (PosToTile e.pos).1 (PosToTile e.pos).2 } := by
      unfold stepTurn; rw [if_pos hturn]
    rw [ht] at h1 h2 ⊢
    unfold stepAdvance at h1 h2 ⊢
    dsimp only at h1 h2 ⊢
    by_cases hz : e.wantDir = (⟨0, 0⟩ : Vec)
    · rw [if_pos hz] at h2; exact absurd hz h2
    · rw [if_neg hz] at h1 h2 ⊢
      by_cases hrej : ¬ CanMoveTo
          ((TileCenter (PosToTile e.pos).1 (PosToTile e.pos).2).Add
            (e.wantDir.Mul e.speed)) lvl = true
      · rw [if_pos hrej] at h2; exact absurd rfl h2
      · rw [if_neg hrej]
        exact ⟨hturn.2.2, hturn.2.1, rfl, rfl⟩
  · have ht : stepTurn e lvl = e := by
      unfold stepTurn; rw [if_neg hturn]
    rw [ht] at h1 h2 ⊢
    unfold stepAdvance at h1 h2 ⊢
    by_cases hz : e.dir = (⟨0, 0⟩ : Vec)
    · rw [if_pos hz] at h1; exact absurd rfl h1
    · rw [if_neg hz] at h1 h2 ⊢
      by_cases hrej : ¬ CanMoveTo (e.pos.Add (e.dir.Mul e.speed)) lvl = true
      · rw [if_pos hrej] at h2; exact absurd rfl h2
      · rw [if_neg hrej] at h1; exact absurd rfl h1

theorem dumbGhostAI_gate (g : Entity) (lvl : Level) (r : ℕ) :
    PolicyGateOK g (dumbGhostAI g lvl r) lvl := by
  intro h1 h2
  unfold dumbGhostAI at h1 h2 ⊢
  by_cases hg : ¬ NearCenter g.pos = true ∧ ¬ g.dir = ⟨0, 0⟩
  · rw [if_pos hg] at h1; exact absurd rfl h1
  · rw [if_neg hg] at h1 h2 ⊢
    have hgate : NearCenter g.pos = true ∨ g.dir = ⟨0, 0⟩ := by tauto
    by_cases hz : g.dir = (⟨0, 0⟩ : Vec)
    · rw [if_pos hz] at h1 h2 ⊢
      cases hfw : firstWalkable lvl (PosToTile g.pos).1 (PosToTile g.pos).2 with
      | some d =>
        rw [hfw] at h1 h2
        dsimp only at h1 h2 ⊢
        exact ⟨hgate, firstWalkable_spec hfw, rfl⟩
      | none =>
        rw [hfw] at h1 h2
        dsimp only at h1 h2 ⊢
        by_cases hlen : (walkDirs lvl (PosToTile g.pos)).length = 0
        · rw [if_pos hlen] at h1 h2 ⊢
          rw [if_neg (fun hcon => hcon.1 hz)] at h1 h2 ⊢
          exact absurd rfl h2
        · rw [if_neg hlen] at h1 h2 ⊢
          have hne : ¬ walkDirs lvl (PosToTile g.pos) = [] :=
            fun hemp => hlen (by rw [hemp]; rfl)
          exact ⟨hgate, walkDirs_mem (pickDir_mem hne r), rfl⟩
    · rw [if_neg hz] at h1 h2 ⊢
      by_cases hlen : (walkDirs lvl (PosToTile g.pos)).length = 0
      · rw [if_pos hlen] at h1 h2 ⊢
        by_cases hcont : ¬ g.dir = ⟨0, 0⟩
            ∧ lvl.CanWalk ((PosToTile g.pos).1 + trunc g.dir.x)
                ((PosToTile g.pos).2 + trunc g.dir.y) = true
        · rw [if_pos hcont] at h1; exact absurd rfl h1
        · rw [if_neg hcont] at h1 h2 ⊢
          cases hfw2 : firstWalkable lvl (PosToTile g.pos).1 (PosToTile g.pos).2 with
          | some d =>
            rw [hfw2] at h1 h2
            dsimp only at h1 h2 ⊢
            exact ⟨hgate, firstWalkable_spec hfw2, rfl⟩
          | none =>
            rw [hfw2] at h1 h2
            dsimp only at h1 h2 ⊢
            exact absurd rfl h2
      · rw [if_neg hlen] at h1 h2 ⊢
        have hne : ¬ walkDirs lvl (PosToTile g.pos) = [] :=
          fun hemp => hlen (by rw [hemp]; rfl)
        exact ⟨hgate, walkDirs_mem (pickDir_mem hne r), rfl⟩

theorem normalGhostAI_gate (g : Entity) (dm : DistanceMap) (lvl : Level) (r : ℕ) :
    PolicyGateOK g (normalGhostAI g dm lvl r) lvl := by
  intro h1 h2
  unfold normalGhostAI at h1 h2 ⊢
  by_cases hg : ¬ NearCenter g.pos = true ∧ ¬ g.dir = ⟨0, 0⟩
  · rw [if_pos hg] at h1; exact absurd rfl h1
  · rw [if_neg hg] at h1 h2 ⊢
    have hgate : NearCenter g.pos = true ∨ g.dir = ⟨0, 0⟩ := by tauto
    by_cases hlen : (normalOptions dm lvl (PosToTile g.pos)).length = 0
    · rw [if_pos hlen] at h1 h2 ⊢
      by_cases hcont : ¬ g.dir = ⟨0, 0⟩
          ∧ lvl.CanWalk ((PosToTile g.pos).1 + trunc g.dir.x)
              ((PosToTile g.pos).2 + trunc g.dir.y) = true
      · rw [if_pos hcont] at h1; exact absurd rfl h1
      · rw [if_neg hcont] at h2; exact absurd rfl h2
    · rw [if_neg hlen] at h1 h2 ⊢
      by_cases hb : bestOf (normalOptions dm lvl (PosToTile g.pos)) = []
      · refine absurd ?_ h2
        show (pickFrom (bestOf (normalOptions dm lvl (PosToTile g.pos))) r).dir = ⟨0, 0⟩
        rw [hb]
        rfl
      · have hmem := bestOf_sub (pickFrom_mem hb r)
        have hdir : (pickFrom (bestOf (normalOptions dm lvl (PosToTile g.pos))) r).dir
            ∈ walkDirs lvl (PosToTile g.pos) := by
          unfold normalOptions at hmem
          exact mem_scored hmem
        exact ⟨hgate, walkDirs_mem hdir, rfl⟩

theorem smartGhostAI_gate (g : Entity) (dm : DistanceMap) (lvl : Level) (r : ℕ) :
    PolicyGateOK g (smartGhostAI g dm lvl r) lvl := by
  intro h1 h2
  unfold smartGhostAI at h1 h2 ⊢
  by_cases hg : ¬ NearCenter g.pos = true ∧ ¬ g.dir = ⟨0, 0⟩
  · rw [if_pos hg] at h1; exact absurd rfl h1
  · rw [if_neg hg] at h1 h2 ⊢
    have hgate : NearCenter g.pos = true ∨ g.dir = ⟨0, 0⟩ := by tauto
    by_cases hlen : (smartOptions dm lvl (PosToTile g.pos)).length = 0
    · rw [if_pos hlen] at h2; exact absurd rfl h2
    · rw [if_neg hlen] at h1 h2 ⊢
      by_cases hb : bestOf (smartOptions dm lvl (PosToTile g.pos)) = []
      · refine absurd ?_ h2
        show (pickFrom (bestOf (smartOptions dm lvl (PosToTile g.pos))) r).dir = ⟨0, 0⟩
        rw [hb]
        rfl
      · have hmem := bestOf_sub (pickFrom_mem hb r)
        have hdir : (pickFrom (bestOf (smartOptions dm lvl (PosToTile g.pos))) r).dir
            ∈ walkDirs lvl (PosToTile g.pos) := by
          unfold smartOptions at hmem
          exact mem_scored hmem
        exact ⟨hgate, walkDirs_mem hdir, rfl⟩

theorem geniusGhostAI_gate (g : Entity) (dm : DistanceMap) (lvl : Level) (r : ℕ) :
    PolicyGateOK g (geniusGhostAI g dm lvl r) lvl := by
  intro h1 h2
  unfold geniusGhostAI at h1 h2 ⊢
  by_cases hg : ¬ NearCenter g.pos = true ∧ ¬ g.dir = ⟨0, 0⟩
  · rw [if_pos hg] at h1; exact absurd rfl h1
  · rw [if_neg hg] at h1 h2 ⊢
    have hgate : NearCenter g.pos = true ∨ g.dir = ⟨0, 0⟩ := by tauto
    by_cases hlen : (geniusOptions dm lvl (PosToTile g.pos)).length = 0
    · rw [if_pos hlen] at h2; exact absurd rfl h2
    · rw [if_neg hlen] at h1 h2 ⊢
      cases hfind : (if 1 < (bestOf (geniusOptions dm lvl (PosToTile g.pos))).length then
          (bestOf (geniusOptions dm lvl (PosToTile g.pos))).find?
            (fun o => o.dir = g.dir)
        else none) with
      | some o =>
        rw [hfind] at h1 h2
        dsimp only at h1 h2 ⊢
        have hmem2 : o ∈ bestOf (geniusOptions dm lvl (PosToTile g.pos)) := by
          by_cases hlt : 1 < (bestOf (geniusOptions dm lvl (PosToTile g.pos))).length
          · rw [if_pos hlt] at hfind
            exact List.mem_of_find?_eq_some hfind
          · rw [if_neg hlt] at hfind
            exact absurd hfind (by simp)
        have hdir : o.dir ∈ walkDirs lvl (PosToTile g.pos) := by
          have := bestOf_sub hmem2
          unfold geniusOptions at this
          exact mem_scored this
        exact ⟨hgate, walkDirs_mem hdir, rfl⟩
      | none =>
        rw [hfind] at h1 h2
        dsimp only at h1 h2 ⊢
        by_cases hb : bestOf (geniusOptions dm lvl (PosToTile g.pos)) = []
        · refine absurd ?_ h2
          show (pickFrom (bestOf (geniusOptions dm lvl (PosToTile g.pos))) r).dir = ⟨0, 0⟩
          rw [hb]
          rfl
        · have hmem := bestOf_sub (pickFrom_mem hb r)
          have hdir : (pickFrom (bestOf (geniusOptions dm lvl (PosToTile g.pos))) r).dir
              ∈ walkDirs lvl (PosToTile g.pos) := by
            unfold geniusOptions at hmem
            exact mem_scored hmem
          exact ⟨hgate, walkDirs_mem hdir, rfl⟩

theorem slowGhostAI_gate (g : Entity) (dm : DistanceMap) (lvl : Level)
    (mistake : Bool) (r : ℕ) :
    PolicyGateOK g (slowGhostAI g dm lvl mistake r) lvl := by
  unfold slowGhostAI
  by_cases hg : ¬ NearCenter g.pos = true ∧ ¬ g.dir = ⟨0, 0⟩
  · rw [if_pos hg]; intro h1 _; exact absurd rfl h1
  · rw [if_neg hg]
    cases mistake with
    | true => rw [if_pos rfl]; exact dumbGhostAI_gate g lvl r
    | false => rw [if_neg (by simp)]; exact normalGhostAI_gate g dm lvl r

theorem ghostAI_gate (g : Entity) (dm : DistanceMap) (lvl : Level)
    (sk : GhostLevel) (mistake : Bool) (r : ℕ) :
    PolicyGateOK g (GhostAI g dm lvl sk mistake r) lvl := by
  cases sk with
  | dumb => exact dumbGhostAI_gate g lvl r
  | slow => exact slowGhostAI_gate g dm lvl mistake r
  | normal => exact normalGhostAI_gate g dm lvl r
  | smart => exact smartGhostAI_gate g dm lvl r

/-! Concrete evaluation of `normalGhostAI` on a stopped, off-center ghost
in a 2×1 open corridor, used by the turn-gating claim. -/

theorem trunc_intCast (n : ℤ) : trunc ((n : ℤ) : ℚ) = n := by
  unfold trunc
  rw [Rat.num_intCast, Rat.den_intCast]
  simp

theorem trunc_one : trunc (1 : ℚ) = 1 := by
  rw [show (1 : ℚ) = ((1 : ℤ) : ℚ) by norm_num]
  exact trunc_intCast 1

theorem trunc_zero : trunc (0 : ℚ) = 0 := by
  rw [show (0 : ℚ) = ((0 : ℤ) : ℚ) by norm_num]
  exact trunc_intCast 0

theorem trunc_negOne : trunc (-1 : ℚ) = -1 := by
  rw [show (-1 : ℚ) = ((-1 : ℤ) : ℚ) by norm_num]
  exact trunc_intCast (-1)

theorem normal_offcenter_eval :
    normalGhostAI ⟨⟨20, 20⟩, ⟨0, 0⟩, ⟨0, 0⟩, 1⟩ (NewDistanceMap 2 1)
        ⟨[[Tile.empty, Tile.empty]], 2, 1, 0⟩ 0
      = ⟨⟨12, 12⟩, ⟨1, 0⟩, ⟨1, 0⟩, 1⟩ := by
  have hpt : PosToTile (⟨20, 20⟩ : Vec) = (0, 0) :=
    PosToTile_eval (by norm_num) (by norm_num) (by norm_num) (by norm_num)
      (by norm_num) (by norm_num) (by norm_num) (by norm_num)
  have hA : Level.CanWalk ⟨[[Tile.empty, Tile.empty]], 2, 1, 0⟩ 1 0 = true := by decide
  have hB : Level.CanWalk ⟨[[Tile.empty, Tile.empty]], 2, 1, 0⟩ (-1) 0 = false := by decide
  have hC : Level.CanWalk ⟨[[Tile.empty, Tile.empty]], 2, 1, 0⟩ 0 1 = false := by decide
  have hD : Level.CanWalk ⟨[[Tile.empty, Tile.empty]], 2, 1, 0⟩ 0 (-1) = false := by decide
  have hwd : walkDirs ⟨[[Tile.empty, Tile.empty]], 2, 1, 0⟩ ((0 : ℤ), (0 : ℤ))
      = [⟨1, 0⟩] := by
    unfold walkDirs aiDirs
    simp only [List.filter_cons, List.filter_nil, trunc_one, trunc_zero, trunc_negOne]
    simp [hA, hB, hC, hD]
  have hgd : (NewDistanceMap 2 1).GetDistance 1 0 = 0 := by decide
  have hno : normalOptions (NewDistanceMap 2 1) ⟨[[Tile.empty, Tile.empty]], 2, 1, 0⟩
      ((0 : ℤ), (0 : ℤ)) = [⟨⟨1, 0⟩, 0⟩] := by
    unfold normalOptions
    rw [hwd]
    simp only [List.map_cons, List.map_nil, trunc_one, trunc_zero, zero_add, add_zero]
    rw [hgd]
    rfl
  have hbest : bestOf [(⟨⟨1, 0⟩, 0⟩ : Candidate)] = [⟨⟨1, 0⟩, 0⟩] := by
    unfold bestOf minScore
    simp only [List.foldl_cons, List.foldl_nil, List.filter_cons, List.filter_nil]
    norm_num
  have hpick : pickFrom [(⟨⟨1, 0⟩, 0⟩ : Candidate)] 0 = ⟨⟨1, 0⟩, 0⟩ := rfl
  unfold normalGhostAI
  rw [if_neg (fun hcon => hcon.2 rfl)]
  dsimp only
  rw [hpt, hno]
  rw [if_neg (by decide)]
  rw [hbest, hpick]
  dsimp only
  refine congrArg (fun p => (⟨p, ⟨1, 0⟩, ⟨1, 0⟩, 1⟩ : Entity)) ?_
  unfold TileCenter TileSize
  norm_num

/-- C3 counterexample: the claim says every kernel operation changes a
direction to a new non-zero value only when the position is within the
tile-center tolerance, but `normalGhostAI` also fires for a *stopped*
ghost anywhere in its tile: at `(20, 20)` (8px from the center of tile
`(0, 0)`, beyond every tolerance) it sets the direction to `(1, 0)`. -/
theorem C3_counterexample :
    ¬ (normalGhostAI ⟨⟨20, 20⟩, ⟨0, 0⟩, ⟨0, 0⟩, 1⟩ (NewDistanceMap 2 1)
          ⟨[[Tile.empty, Tile.empty]], 2, 1, 0⟩ 0).dir
        = (⟨⟨20, 20⟩, ⟨0, 0⟩, ⟨0, 0⟩, 1⟩ : Entity).dir
    ∧ ¬ (normalGhostAI ⟨⟨20, 20⟩, ⟨0, 0⟩, ⟨0, 0⟩, 1⟩ (NewDistanceMap 2 1)
          ⟨[[Tile.empty, Tile.empty]], 2, 1, 0⟩ 0).dir = ⟨0, 0⟩
    ∧ NearCenter (⟨20, 20⟩ : Vec) = false
    ∧ VeryNearCenter (⟨20, 20⟩ : Vec) = false
    ∧ AtCenter (⟨20, 20⟩ : Vec) = false := by
  have hpt : PosToTile (⟨20, 20⟩ : Vec) = (0, 0) :=
    PosToTile_eval (by norm_num) (by norm_num) (by norm_num) (by norm_num)
      (by norm_num) (by norm_num) (by norm_num) (by norm_num)
  have hcenter : TileCenter (0 : ℤ) (0 : ℤ) = ⟨12, 12⟩ := by
    unfold TileCenter TileSize
    norm_num
  refine ⟨?_, ?_, ?_, ?_, ?_⟩
  · rw [normal_offcenter_eval]
    intro h
    have := congrArg Vec.x h
    norm_num at this
  · rw [normal_offcenter_eval]
    intro h
    have := congrArg Vec.x h
    norm_num at this
  · rw [Bool.eq_false_iff]
    rw [Ne, NearCenter_iff, hpt, hcenter]
    norm_num
  · rw [Bool.eq_false_iff]
    rw [Ne, VeryNearCenter_iff, hpt, hcenter]
    norm_num
  · rw [Bool.eq_false_iff]
    rw [Ne, AtCenter_iff, hpt, hcenter]
    norm_num

/-- C3 as amended: across every kernel operation that can modify an
agent's direction — `TryTurn`, `StepMove`, and each ghost policy — the
direction changes to a new non-zero value only when the agent was within
the operation's tile-center tolerance *or*, for the ghost policies, when
the agent was stopped (zero direction, any position); such a change only
selects a direction whose neighbor tile is walkable; and the position is
snapped exactly onto the tile center at the moment of the change
(`StepMove` then advances one step from that center within the same
operation). -/
theorem C3_turn_gating :
    (∀ (e : Entity) (want : Vec) (lvl : Level),
      ¬ (TryTurn e want lvl).dir = e.dir →
        VeryNearCenter e.pos = true ∧ CanTurn e.pos want lvl = true
        ∧ ¬ want = ⟨0, 0⟩ ∧ (TryTurn e want lvl).dir = want
        ∧ (TryTurn e want lvl).pos
            = TileCenter (PosToTile e.pos).1 (PosToTile e.pos).2)
    ∧ (∀ (e : Entity) (lvl : Level),
      ¬ (StepMove e lvl).dir = e.dir → ¬ (StepMove e lvl).dir = ⟨0, 0⟩ →
        (AtCenter e.pos = true ∨ NearCenter e.pos = true)
        ∧ CanTurn e.pos e.wantDir lvl = true
        ∧ (StepMove e lvl).dir = e.wantDir
        ∧ (StepMove e lvl).pos
            = (TileCenter (PosToTile e.pos).1 (PosToTile e.pos).2).Add
                (e.wantDir.Mul e.speed))
    ∧ (∀ (g : Entity) (lvl : Level) (r : ℕ),
        PolicyGateOK g (dumbGhostAI g lvl r) lvl)
    ∧ (∀ (g : Entity) (dm : DistanceMap) (lvl : Level) (r : ℕ),
        PolicyGateOK g (normalGhostAI g dm lvl r) lvl)
    ∧ (∀ (g : Entity) (dm : DistanceMap) (lvl : Level) (r : ℕ),
        PolicyGateOK g (smartGhostAI g dm lvl r) lvl)
    ∧ (∀ (g : Entity) (dm : DistanceMap) (lvl : Level) (r : ℕ),
        PolicyGateOK g (geniusGhostAI g dm lvl r) lvl)
    ∧ (∀ (g : Entity) (dm : DistanceMap) (lvl : Level) (m : Bool) (r : ℕ),
        PolicyGateOK g (slowGhostAI g dm lvl m r) lvl)
    ∧ (∀ (g : Entity) (dm : DistanceMap) (lvl : Level) (sk : GhostLevel)
        (m : Bool) (r : ℕ), PolicyGateOK g (GhostAI g dm lvl sk m r) lvl) :=
  ⟨tryTurn_gate, stepMove_gate, dumbGhostAI_gate, normalGhostAI_gate,
    smartGhostAI_gate, geniusGhostAI_gate, slowGhostAI_gate, ghostAI_gate⟩

/-- Witness for the amended C3 at a concrete input: the stopped ghost of
the counterexample restarts toward the walkable tile `(1, 0)` and is
snapped onto its tile center. -/
theorem C3_turn_gating_witness :
    (NearCenter (⟨⟨20, 20⟩, ⟨0, 0⟩, ⟨0, 0⟩, 1⟩ : Entity).pos = true
      ∨ (⟨⟨20, 20⟩, ⟨0, 0⟩, ⟨0, 0⟩, 1⟩ : Entity).dir = ⟨0, 0⟩)
    ∧ Level.CanWalk ⟨[[Tile.empty, Tile.empty]], 2, 1, 0⟩
        ((PosToTile (⟨⟨20, 20⟩, ⟨0, 0⟩, ⟨0, 0⟩, 1⟩ : Entity).pos).1
          + trunc (normalGhostAI ⟨⟨20, 20⟩, ⟨0, 0⟩, ⟨0, 0⟩, 1⟩ (NewDistanceMap 2 1)
              ⟨[[Tile.empty, Tile.empty]], 2, 1, 0⟩ 0).dir.x)
        ((PosToTile (⟨⟨20, 20⟩, ⟨0, 0⟩, ⟨0, 0⟩, 1⟩ : Entity).pos).2
          + trunc (normalGhostAI ⟨⟨20, 20⟩, ⟨0, 0⟩, ⟨0, 0⟩, 1⟩ (NewDistanceMap 2 1)
              ⟨[[Tile.empty, Tile.empty]], 2, 1, 0⟩ 0).dir.y) = true
    ∧ (normalGhostAI ⟨⟨20, 20⟩, ⟨0, 0⟩, ⟨0, 0⟩, 1⟩ (NewDistanceMap 2 1)
        ⟨[[Tile.empty, Tile.empty]], 2, 1, 0⟩ 0).pos
      = TileCenter (PosToTile (⟨⟨20, 20⟩, ⟨0, 0⟩, ⟨0, 0⟩, 1⟩ : Entity).pos).1
          (PosToTile (⟨⟨20, 20⟩, ⟨0, 0⟩, ⟨0, 0⟩, 1⟩ : Entity).pos).2 :=
  C3_turn_gating.2.2.2.1 ⟨⟨20, 20⟩, ⟨0, 0⟩, ⟨0, 0⟩, 1⟩ (NewDistanceMap 2 1)
    ⟨[[Tile.empty, Tile.empty]], 2, 1, 0⟩ 0
    (by
      rw [normal_offcenter_eval]
      intro h
      have := congrArg Vec.x h
      norm_num at this)
    (by
      rw [normal_offcenter_eval]
      intro h
      have := congrArg Vec.x h
      norm_num at this)

/-! Lemmas for the win-condition state machine. -/

theorem gInv_init : GInv initState := by
  refine ⟨rfl, ?_, ?_, ?_⟩
  · show 0 + defaultLevel.remaining = defaultLevel.totalPellets
    rw [Nat.zero_add]
    decide
  · intro _
    show 0 < defaultLevel.remaining
    decide
  · intro h
    exact absurd h (by decide)

theorem tick_inv {g : GState} (h : GInv g) (i : TickInput) : GInv (tick g i) := by
  obtain ⟨htp, hsum, hplay, hwon⟩ := h
  unfold tick
  by_cases hw : g.won = true
  · rw [if_pos hw]; exact ⟨htp, hsum, hplay, hwon⟩
  · rw [if_neg hw]
    have htp2 := consume_totalPellets g.level i.playerTile.1 i.playerTile.2
    have h11 : (if (true : Bool) = true then (1 : ℕ) else 0) = 1 := rfl
    have h00 : (if (false : Bool) = true then (1 : ℕ) else 0) = 0 := rfl
    have hsum2 : g.pelletsCollected
          + (if (g.level.ConsumePellet i.playerTile.1 i.playerTile.2).1 then 1 else 0)
          + (g.level.ConsumePellet i.playerTile.1 i.playerTile.2).2.remaining
        = defaultLevel.totalPellets := by
      cases hb : (g.level.ConsumePellet i.playerTile.1 i.playerTile.2).1 with
      | true =>
        have := consume_remaining hb
        rw [h11]
        omega
      | false =>
        have := consume_false_eq hb
        rw [h00, this]
        omega
    by_cases hwin : (g.level.ConsumePellet i.playerTile.1 i.playerTile.2).2.totalPellets
        ≤ g.pelletsCollected
          + (if (g.level.ConsumePellet i.playerTile.1 i.playerTile.2).1 then 1 else 0)
    · rw [if_pos hwin]
      unfold GInv
      dsimp only
      rw [htp2, htp] at hwin ⊢
      refine ⟨rfl, hsum2, fun hcon => absurd hcon (by simp), fun _ => hwin⟩
    · rw [if_neg hwin]
      by_cases hc : i.caught = true
      · rw [if_pos hc]; exact gInv_init
      · rw [if_neg hc]
        by_cases hr : i.restartKey = true
        · rw [if_pos hr]; exact gInv_init
        · rw [if_neg hr]
          unfold GInv
          dsimp only
          rw [htp2, htp] at hwin ⊢
          refine ⟨rfl, hsum2, fun _ => by omega, fun hcon => absurd hcon (by simp)⟩

theorem foldl_tick_inv (L : List TickInput) {g : GState} (h : GInv g) :
    GInv (L.foldl tick g) := by
  induction L generalizing g with
  | nil => exact h
  | cons i L ih => exact ih (tick_inv h i)

theorem run_inv (L : List TickInput) : GInv (run L) :=
  foldl_tick_inv L gInv_init

theorem tick_won_frozen {g : GState} (h : g.won = true) (i : TickInput) :
    tick g i = g := by
  unfold tick
  rw [if_pos h]

theorem tick_flip {g : GState} (h : GInv g) (i : TickInput) (hw : g.won = false)
    (hf : (tick g i).won = true) :
    (g.level.ConsumePellet i.playerTile.1 i.playerTile.2).1 = true
    ∧ (tick g i).pelletsCollected = defaultLevel.totalPellets
    ∧ (tick g i).level.remaining = 0 := by
  obtain ⟨htp, hsum, hplay, _⟩ := h
  have hw' : ¬ g.won = true := by rw [hw]; simp
  have hpc : g.pelletsCollected < defaultLevel.totalPellets := by
    have := hplay hw
    omega
  unfold tick at hf ⊢
  rw [if_neg hw'] at hf ⊢
  have htp2 := consume_totalPellets g.level i.playerTile.1 i.playerTile.2
  have h11 : (if (true : Bool) = true then (1 : ℕ) else 0) = 1 := rfl
  have h00 : (if (false : Bool) = true then (1 : ℕ) else 0) = 0 := rfl
  by_cases hwin : (g.level.ConsumePellet i.playerTile.1 i.playerTile.2).2.totalPellets
      ≤ g.pelletsCollected
        + (if (g.level.ConsumePellet i.playerTile.1 i.playerTile.2).1 then 1 else 0)
  · rw [if_pos hwin] at hf ⊢
    dsimp only at hf ⊢
    rw [htp2, htp] at hwin
    cases hb : (g.level.ConsumePellet i.playerTile.1 i.playerTile.2).1 with
    | false =>
      rw [hb, h00] at hwin
      exact absurd hwin (by omega)
    | true =>
      have hrem := consume_remaining hb
      rw [hb, h11] at hwin
      rw [h11]
      refine ⟨rfl, by omega, by omega⟩
  · rw [if_neg hwin] at hf
    by_cases hc : i.caught = true
    · rw [if_pos hc] at hf; exact absurd hf (by decide)
    · rw [if_neg hc] at hf
      by_cases hr : i.restartKey = true
      · rw [if_pos hr] at hf; exact absurd hf (by decide)
      · rw [if_neg hr] at hf; simp at hf

/-- C6: win at the Nth consumption.  Starting from `initLevel` on the
default level (pellet count `N`): the session invariant holds along every
run; a won state ignores further ticks (the signal cannot re-fire); the
`Won` transition fires exactly at a tick whose `consumePellet` succeeded
and brought `pelletsCollected` to `N`, leaving no pellet on the board —
so apple pickups (which only touch `score`) never trigger it; and while
the game is not won, fewer than `N` pellets have been consumed, i.e. the
signal never fires while a pellet remains. -/
theorem C6_win_at_nth :
    (∀ L : List TickInput, GInv (run L))
    ∧ (∀ (g : GState) (i : TickInput), g.won = true → tick g i = g)
    ∧ (∀ (L : List TickInput) (i : TickInput),
        (run L).won = false → (tick (run L) i).won = true →
          ((run L).level.ConsumePellet i.playerTile.1 i.playerTile.2).1 = true
          ∧ (tick (run L) i).pelletsCollected = defaultLevel.totalPellets
          ∧ (tick (run L) i).level.remaining = 0)
    ∧ (∀ L : List TickInput,
        (run L).won = false →
          (run L).pelletsCollected < defaultLevel.totalPellets) :=
  ⟨run_inv,
    fun _ i h => tick_won_frozen h i,
    fun L i hw hf => tick_flip (run_inv L) i hw hf,
    fun L hw => by
      obtain ⟨_, hsum, hplay, _⟩ := run_inv L
      have := hplay hw
      omega⟩

set_option maxRecDepth 100000 in
/-- Witness for C6 at a concrete input: walking the player over every
pellet of the default level in row-major order, the final pellet at
`(19, 9)` is the consumption that completes the count and clears the
board. -/
theorem C6_win_at_nth_witness :
    ((run pelletInputs.dropLast).level.ConsumePellet 19 9).1 = true
    ∧ (tick (run pelletInputs.dropLast) ⟨(19, 9), 0, false, false⟩).pelletsCollected
        = defaultLevel.totalPellets
    ∧ (tick (run pelletInputs.dropLast) ⟨(19, 9), 0, false, false⟩).level.remaining = 0 :=
  C6_win_at_nth.2.2.1 pelletInputs.dropLast ⟨(19, 9), 0, false, false⟩
    (by decide) (by decide)

/-! Basic lemmas about the distance matrix. -/

theorem distShape_replicate (w h v : ℕ) :
    distShape w h (List.replicate h (List.replicate w v)) := by
  refine ⟨List.length_replicate h _, ?_⟩
  intro row hrow
  rw [List.eq_of_mem_replicate hrow]
  exact List.length_replicate w v

theorem getDist_replicate {w h : ℕ} {p : ℕ × ℕ} (hp : inB w h p) (v : ℕ) :
    getDist (List.replicate h (List.replicate w v)) p.1 p.2 = v := by
  unfold getDist
  rw [List.get?_eq_getElem? (List.replicate h (List.replicate w v)) p.2,
    List.getElem?_replicate, if_pos hp.2, Option.getD_some,
    List.get?_eq_getElem?, List.getElem?_replicate, if_pos hp.1, Option.getD_some]

theorem distShape_entry {w h : ℕ} {dist : List (List ℕ)} (hs : distShape w h dist)
    {p : ℕ × ℕ} (hp : inB w h p) :
    ∃ row, dist.get? p.2 = some row ∧ p.1 < row.length := by
  have hy : p.2 < dist.length := by rw [hs.1]; exact hp.2
  have hg : dist.get? p.2 = some (dist.get ⟨p.2, hy⟩) := List.get?_eq_get hy
  refine ⟨_, hg, ?_⟩
  rw [hs.2 _ (List.get?_mem hg)]
  exact hp.1

theorem getDist_entry_val {dist : List (List ℕ)} {x y : ℕ} {row : List ℕ}
    (hy : dist.get? y = some row) (hx : x < row.length) :
    row.get? x = some (getDist dist x y) := by
  unfold getDist
  rw [hy, Option.getD_some]
  cases hv : row.get? x with
  | none =>
    have := List.get?_eq_none.mp hv
    omega
  | some v => rw [Option.getD_some]

theorem getDist_set_self {w h : ℕ} {dist : List (List ℕ)} (hs : distShape w h dist)
    {p : ℕ × ℕ} (hp : inB w h p) (v : ℕ) :
    getDist (setDist dist p.1 p.2 v) p.1 p.2 = v := by
  obtain ⟨row, hy, hx⟩ := distShape_entry hs hp
  unfold getDist setDist
  rw [List.get?_set_eq, hy]
  simp only [Option.map_eq_map, Option.map_some', Option.getD_some]
  rw [List.get?_eq_getElem?, List.getElem?_set_self hx, Option.getD_some]

theorem getDist_set_ne {dist : List (List ℕ)} {x y : ℕ} (v : ℕ) {p : ℕ × ℕ}
    (h : ¬ (p.1 = x ∧ p.2 = y)) :
    getDist (setDist dist x y v) p.1 p.2 = getDist dist p.1 p.2 := by
  unfold getDist setDist
  by_cases hy : p.2 = y
  · subst hy
    have hx : p.1 ≠ x := fun hx => h ⟨hx, rfl⟩
    rw [List.get?_set_eq]
    cases hg : dist.get? p.2 with
    | none => simp
    | some row =>
      simp only [Option.map_eq_map, Option.map_some', Option.getD_some]
      rw [List.get?_set_ne _ _ fun he => hx he.symm]
  · rw [List.get?_set_ne _ _ fun he => hy he.symm]

theorem distShape_set {w h : ℕ} {dist : List (List ℕ)} (hs : distShape w h dist)
    (x y v : ℕ) : distShape w h (setDist dist x y v) := by
  constructor
  · rw [setDist, List.length_set]; exact hs.1
  · intro row hrow
    unfold setDist at hrow
    cases hg : dist.get? y with
    | none =>
      rw [List.set_eq_of_length_le (List.get?_eq_none.mp hg)] at hrow
      exact hs.2 row hrow
    | some r =>
      rw [hg, Option.getD_some] at hrow
      rcases List.mem_or_eq_of_mem_set hrow with hmem | heq
      · exact hs.2 row hmem
      · rw [heq, List.length_set]
        exact hs.2 r (List.get?_mem hg)

theorem sumDist_set {w h : ℕ} {dist : List (List ℕ)} (hs : distShape w h dist)
    {p : ℕ × ℕ} (hp : inB w h p) (v : ℕ) :
    sumDist (setDist dist p.1 p.2 v) + getDist dist p.1 p.2 = sumDist dist + v := by
  obtain ⟨row, hy, hx⟩ := distShape_entry hs hp
  have hentry := getDist_entry_val hy hx
  unfold sumDist setDist
  rw [hy, Option.getD_some, List.map_set]
  have houter := sum_set_nat (l := dist.map List.sum) (y := p.2) (v := row.sum)
    (by rw [List.get?_map, hy]; rfl) ((row.set p.1 v).sum)
  have hinner := sum_set_nat (l := row) (y := p.1) (v := getDist dist p.1 p.2)
    hentry v
  omega

theorem canWalk_bounds {lvl : Level} {x y : ℤ}
    (h : lvl.CanWalk x y = true) :
    0 ≤ x ∧ 0 ≤ y ∧ x < (lvl.width : ℤ) ∧ y < (lvl.height : ℤ) := by
  unfold Level.CanWalk at h
  by_cases hb : lvl.oob x y
  · rw [if_pos hb] at h; exact absurd h (by simp)
  · unfold Level.oob at hb
    push_neg at hb
    exact ⟨hb.1, hb.2.1, hb.2.2.1, hb.2.2.2⟩

theorem bfsDirs_neg_mem : ∀ d ∈ bfsDirs, ((-d.1, -d.2) : ℤ × ℤ) ∈ bfsDirs := by
  decide

theorem bfsDirs_ne_zero : ∀ d ∈ bfsDirs, ¬ (d.1 = 0 ∧ d.2 = 0) := by
  decide

theorem getDist_pos_entry {dist : List (List ℕ)} {x y : ℕ}
    (h : 0 < getDist dist x y) :
    ∃ row, dist.get? y = some row ∧ x < row.length := by
  unfold getDist at h
  cases hy : dist.get? y with
  | none =>
    rw [hy] at h
    simp at h
  | some row =>
    rw [hy, Option.getD_some] at h
    cases hx : row.get? x with
    | none =>
      rw [hx] at h
      simp at h
    | some v => exact ⟨row, rfl, (List.get?_eq_some.mp hx).1⟩

theorem sumDist_set_entry {dist : List (List ℕ)} {x y : ℕ} {row : List ℕ}
    (hy : dist.get? y = some row) (hx : x < row.length) (v : ℕ) :
    sumDist (setDist dist x y v) + getDist dist x y = sumDist dist + v := by
  have hentry := getDist_entry_val hy hx
  unfold sumDist setDist
  rw [hy, Option.getD_some, List.map_set]
  have houter := sum_set_nat (l := dist.map List.sum) (y := y) (v := row.sum)
    (by rw [List.get?_map, hy]; rfl) ((row.set x v).sum)
  have hinner := sum_set_nat (l := row) (y := x) (v := getDist dist x y) hentry v
  omega

theorem getDist_set_entry_self {dist : List (List ℕ)} {x y : ℕ} {row : List ℕ}
    (hy : dist.get? y = some row) (hx : x < row.length) (v : ℕ) :
    getDist (setDist dist x y v) x y = v := by
  unfold getDist setDist
  rw [List.get?_set_eq, hy]
  simp only [Option.map_eq_map, Option.map_some', Option.getD_some]
  rw [List.get?_eq_getElem?, List.getElem?_set_self hx, Option.getD_some]

/-- One relaxation never increases the termination measure
`2 * sumDist + |queue|`: a no-op keeps it, and an enqueue pays for itself
by decreasing the touched label by at least one. -/
theorem relaxStep_mu (lvl : Level) (w h : ℕ) (cur : ℕ × ℕ)
    (st : List (List ℕ) × List (ℕ × ℕ)) (d : ℤ × ℤ) :
    2 * sumDist (relaxStep lvl w h cur st d).1
        + (relaxStep lvl w h cur st d).2.length
      ≤ 2 * sumDist st.1 + st.2.length := by
  unfold relaxStep
  by_cases h1 : (cur.1 : ℤ) + d.1 < 0 ∨ (cur.2 : ℤ) + d.2 < 0
      ∨ (w : ℤ) ≤ (cur.1 : ℤ) + d.1 ∨ (h : ℤ) ≤ (cur.2 : ℤ) + d.2
  · rw [if_pos h1]
  · rw [if_neg h1]
    by_cases h2 : ¬ lvl.CanWalk ((cur.1 : ℤ) + d.1) ((cur.2 : ℤ) + d.2) = true
    · rw [if_pos h2]
    · rw [if_neg h2]
      by_cases h3 : getDist st.1 cur.1 cur.2 + 1
          < getDist st.1 ((cur.1 : ℤ) + d.1).toNat ((cur.2 : ℤ) + d.2).toNat
      · rw [if_pos h3]
        have hpos : 0 < getDist st.1 ((cur.1 : ℤ) + d.1).toNat
            ((cur.2 : ℤ) + d.2).toNat := lt_of_le_of_lt (Nat.zero_le _) h3
        obtain ⟨row, hy, hx⟩ := getDist_pos_entry hpos
        have hsum := sumDist_set_entry hy hx (getDist st.1 cur.1 cur.2 + 1)
        dsimp only
        rw [List.length_append]
        simp only [List.length_cons, List.length_nil]
        omega
      · rw [if_neg h3]

theorem foldl_relax_mu (lvl : Level) (w h : ℕ) (cur : ℕ × ℕ)
    (ds : List (ℤ × ℤ)) (st : List (List ℕ) × List (ℕ × ℕ)) :
    2 * sumDist (ds.foldl (relaxStep lvl w h cur) st).1
        + (ds.foldl (relaxStep lvl w h cur) st).2.length
      ≤ 2 * sumDist st.1 + st.2.length := by
  induction ds generalizing st with
  | nil => exact le_refl _
  | cons d ds ih =>
    rw [List.foldl_cons]
    exact le_trans (ih _) (relaxStep_mu lvl w h cur st d)

/-- One relaxation never increases any label. -/
theorem relaxStep_mono (lvl : Level) (w h : ℕ) (cur : ℕ × ℕ)
    (st : List (List ℕ) × List (ℕ × ℕ)) (d : ℤ × ℤ) (p : ℕ × ℕ) :
    getDist (relaxStep lvl w h cur st d).1 p.1 p.2 ≤ getDist st.1 p.1 p.2 := by
  unfold relaxStep
  by_cases h1 : (cur.1 : ℤ) + d.1 < 0 ∨ (cur.2 : ℤ) + d.2 < 0
      ∨ (w : ℤ) ≤ (cur.1 : ℤ) + d.1 ∨ (h : ℤ) ≤ (cur.2 : ℤ) + d.2
  · rw [if_pos h1]
  · rw [if_neg h1]
    by_cases h2 : ¬ lvl.CanWalk ((cur.1 : ℤ) + d.1) ((cur.2 : ℤ) + d.2) = true
    · rw [if_pos h2]
    · rw [if_neg h2]
      by_cases h3 : getDist st.1 cur.1 cur.2 + 1
          < getDist st.1 ((cur.1 : ℤ) + d.1).toNat ((cur.2 : ℤ) + d.2).toNat
      · rw [if_pos h3]
        dsimp only
        by_cases hp : p.1 = ((cur.1 : ℤ) + d.1).toNat ∧ p.2 = ((cur.2 : ℤ) + d.2).toNat
        · have hpos : 0 < getDist st.1 ((cur.1 : ℤ) + d.1).toNat
              ((cur.2 : ℤ) + d.2).toNat := lt_of_le_of_lt (Nat.zero_le _) h3
          obtain ⟨row, hy, hx⟩ := getDist_pos_entry hpos
          rw [hp.1, hp.2, getDist_set_entry_self hy hx]
          omega
        · rw [getDist_set_ne _ hp]
      · rw [if_neg h3]

theorem foldl_relax_mono (lvl : Level) (w h : ℕ) (cur : ℕ × ℕ)
    (ds : List (ℤ × ℤ)) (st : List (List ℕ) × List (ℕ × ℕ)) (p : ℕ × ℕ) :
    getDist (ds.foldl (relaxStep lvl w h cur) st).1 p.1 p.2
      ≤ getDist st.1 p.1 p.2 := by
  induction ds generalizing st with
  | nil => exact le_refl _
  | cons d ds ih =>
    rw [List.foldl_cons]
    exact le_trans (ih _) (relaxStep_mono lvl w h cur st d p)

/-- One relaxation of a direction preserves the mid-fold invariant: the
guard `distances[next] > distances[cur] + 1` can only pass for a cell
still at `INF` — pending cells sit within one of `cur`'s label, settled
cells at or below it, and already-relaxed cells exactly one above it. -/
theorem relaxStep_mid {lvl : Level} {w h : ℕ} {cur : ℕ × ℕ}
    {dist0 : List (List ℕ)} {rest : List (ℕ × ℕ)}
    (hbound0 : ∀ p : ℕ × ℕ, inB w h p → getDist dist0 p.1 p.2 ≤ INF)
    (hrestle : ∀ q ∈ rest, getDist dist0 q.1 q.2 ≤ getDist dist0 cur.1 cur.2 + 1)
    (hsettle : ∀ p : ℕ × ℕ, inB w h p → getDist dist0 p.1 p.2 < INF →
      ¬ p ∈ cur :: rest → getDist dist0 p.1 p.2 ≤ getDist dist0 cur.1 cur.2)
    {st : List (List ℕ) × List (ℕ × ℕ)} {d : ℤ × ℤ} (hd : d ∈ bfsDirs)
    (hmid : MidInv lvl w h cur dist0 rest st) :
    MidInv lvl w h cur dist0 rest (relaxStep lvl w h cur st d) := by
  obtain ⟨hshape, news, hpend, hnodup, hnews, hothers⟩ := hmid
  have hcurnews : ¬ cur ∈ news := fun hc =>
    (hnews cur hc).2.2.2.2.2.1 (List.mem_cons_self cur rest)
  have hcur : getDist st.1 cur.1 cur.2 = getDist dist0 cur.1 cur.2 :=
    hothers cur hcurnews
  unfold relaxStep
  by_cases h1 : (cur.1 : ℤ) + d.1 < 0 ∨ (cur.2 : ℤ) + d.2 < 0
      ∨ (w : ℤ) ≤ (cur.1 : ℤ) + d.1 ∨ (h : ℤ) ≤ (cur.2 : ℤ) + d.2
  · rw [if_pos h1]; exact ⟨hshape, news, hpend, hnodup, hnews, hothers⟩
  · rw [if_neg h1]
    by_cases h2 : ¬ lvl.CanWalk ((cur.1 : ℤ) + d.1) ((cur.2 : ℤ) + d.2) = true
    · rw [if_pos h2]; exact ⟨hshape, news, hpend, hnodup, hnews, hothers⟩
    · rw [if_neg h2]
      by_cases h3 : getDist st.1 cur.1 cur.2 + 1
          < getDist st.1 ((cur.1 : ℤ) + d.1).toNat ((cur.2 : ℤ) + d.2).toNat
      · rw [if_pos h3]
        push_neg at h1
        obtain ⟨h1a, h1b, h1c, h1d⟩ := h1
        set q : ℕ × ℕ := (((cur.1 : ℤ) + d.1).toNat, ((cur.2 : ℤ) + d.2).toNat)
          with hq
        have hqc1 : ((cur.1 : ℤ) + d.1).toNat = q.1 := rfl
        have hqc2 : ((cur.2 : ℤ) + d.2).toNat = q.2 := rfl
        rw [hqc1, hqc2] at h3 ⊢
        have hq1 : (q.1 : ℤ) = (cur.1 : ℤ) + d.1 := Int.toNat_of_nonneg (by omega)
        have hq2 : (q.2 : ℤ) = (cur.2 : ℤ) + d.2 := Int.toNat_of_nonneg (by omega)
        have hqB : inB w h q := by
          constructor
          · omega
          · omega
        have hqW : lvl.CanWalk q.1 q.2 = true := by
          rw [not_not] at h2
          rw [hq1, hq2]
          exact h2
        have hqnews : ¬ q ∈ news := by
          intro hqn
          have := (hnews q hqn).2.2.2.1
          rw [hcur] at h3
          omega
        have hq0 : getDist st.1 q.1 q.2 = getDist dist0 q.1 q.2 :=
          hothers q hqnews
        rw [hcur, hq0] at h3
        have hqcr : ¬ q ∈ cur :: rest := by
          intro hqcr
          rcases List.mem_cons.mp hqcr with hqc | hqr
          · rw [hqc] at h3
            omega
          · have := hrestle q hqr
            omega
        have hqINF : getDist dist0 q.1 q.2 = INF := by
          by_contra hne
          have hlt : getDist dist0 q.1 q.2 < INF :=
            lt_of_le_of_ne (hbound0 q hqB) hne
          have := hsettle q hqB hlt hqcr
          omega
        have hfin : getDist dist0 cur.1 cur.2 + 1 < INF := by
          rw [hqINF] at h3
          exact h3
        refine ⟨distShape_set hshape _ _ _, news ++ [q], ?_, ?_, ?_, ?_⟩
        · dsimp only
          rw [hpend, List.append_assoc]
        · rw [List.nodup_append]
          exact ⟨hnodup, List.nodup_singleton q,
            fun a ha hb => hqnews (by rw [List.mem_singleton.mp hb] at ha; exact ha)⟩
        · intro q2 hq2m
          rcases List.mem_append.mp hq2m with hq2n | hq2s
          · obtain ⟨hb1, hb2, hb3, hb4, hb5, hb6, hb7⟩ := hnews q2 hq2n
            have hne : ¬ (q2.1 = q.1 ∧ q2.2 = q.2) := by
              intro hcomp
              exact hqnews (by
                have : q2 = q := Prod.ext hcomp.1 hcomp.2
                rw [← this]
                exact hq2n)
            refine ⟨hb1, hb2, hb3, ?_, hb5, hb6, hb7⟩
            dsimp only
            rw [getDist_set_ne _ hne]
            exact hb4
          · rw [List.mem_singleton.mp hq2s]
            refine ⟨hqB, hqW, hqINF, ?_, hfin, hqcr, d, hd, hq1, hq2⟩
            dsimp only
            obtain ⟨row, hyr, hxr⟩ := distShape_entry hshape hqB
            rw [hcur]
            exact getDist_set_entry_self hyr hxr _
        · intro p hpn
          have hpnews : ¬ p ∈ news := fun hc =>
            hpn (List.mem_append.mpr (Or.inl hc))
          have hpq : ¬ (p.1 = q.1 ∧ p.2 = q.2) := by
            intro hcomp
            exact hpn (List.mem_append.mpr (Or.inr (by
              rw [List.mem_singleton]
              exact Prod.ext hcomp.1 hcomp.2)))
          dsimp only
          rw [getDist_set_ne _ hpq]
          exact hothers p hpnews
      · rw [if_neg h3]; exact ⟨hshape, news, hpend, hnodup, hnews, hothers⟩

theorem foldl_relax_mid {lvl : Level} {w h : ℕ} {cur : ℕ × ℕ}
    {dist0 : List (List ℕ)} {rest : List (ℕ × ℕ)}
    (hbound0 : ∀ p : ℕ × ℕ, inB w h p → getDist dist0 p.1 p.2 ≤ INF)
    (hrestle : ∀ q ∈ rest, getDist dist0 q.1 q.2 ≤ getDist dist0 cur.1 cur.2 + 1)
    (hsettle : ∀ p : ℕ × ℕ, inB w h p → getDist dist0 p.1 p.2 < INF →
      ¬ p ∈ cur :: rest → getDist dist0 p.1 p.2 ≤ getDist dist0 cur.1 cur.2)
    {ds : List (ℤ × ℤ)} (hds : ∀ d ∈ ds, d ∈ bfsDirs)
    {st : List (List ℕ) × List (ℕ × ℕ)}
    (hmid : MidInv lvl w h cur dist0 rest st) :
    MidInv lvl w h cur dist0 rest (ds.foldl (relaxStep lvl w h cur) st) := by
  induction ds generalizing st with
  | nil => exact hmid
  | cons d ds ih =>
    rw [List.foldl_cons]
    exact ih (fun d2 hd2 => hds d2 (List.mem_cons_of_mem d hd2))
      (relaxStep_mid hbound0 hrestle hsettle (hds d (List.mem_cons_self d ds)) hmid)

/-- The mid-fold invariant holds before the first relaxation. -/
theorem midInv_init {lvl : Level} {w h : ℕ} {cur : ℕ × ℕ}
    {dist0 : List (List ℕ)} {rest : List (ℕ × ℕ)}
    (hshape : distShape w h dist0) :
    MidInv lvl w h cur dist0 rest (dist0, rest) := by
  refine ⟨hshape, [], (List.append_nil rest).symm, List.nodup_nil, ?_, ?_⟩
  · intro q hq
    exact absurd hq (List.not_mem_nil q)
  · intro p _
    rfl

/-- After the four-direction relaxation fold for `cur`, every in-bounds
walkable neighbor of `cur` is labelled at most one above `cur`'s label. -/
theorem relaxed_after {lvl : Level} {w h : ℕ} {cur : ℕ × ℕ}
    {dist0 : List (List ℕ)} {rest : List (ℕ × ℕ)}
    (hshape : distShape w h dist0)
    (hbound0 : ∀ p : ℕ × ℕ, inB w h p → getDist dist0 p.1 p.2 ≤ INF)
    (hrestle : ∀ q ∈ rest, getDist dist0 q.1 q.2 ≤ getDist dist0 cur.1 cur.2 + 1)
    (hsettle : ∀ p : ℕ × ℕ, inB w h p → getDist dist0 p.1 p.2 < INF →
      ¬ p ∈ cur :: rest → getDist dist0 p.1 p.2 ≤ getDist dist0 cur.1 cur.2)
    {d : ℤ × ℤ} (hd : d ∈ bfsDirs) {q : ℕ × ℕ}
    (hq1 : (q.1 : ℤ) = cur.1 + d.1) (hq2 : (q.2 : ℤ) = cur.2 + d.2)
    (hqB : inB w h q) (hqW : lvl.CanWalk q.1 q.2 = true) :
    getDist (bfsDirs.foldl (relaxStep lvl w h cur) (dist0, rest)).1 q.1 q.2
      ≤ getDist dist0 cur.1 cur.2 + 1 := by
  obtain ⟨l1, l2, hsplit⟩ := List.append_of_mem hd
  have hl1 : ∀ d2 ∈ l1, d2 ∈ bfsDirs := by
    intro d2 hd2
    rw [hsplit]
    exact List.mem_append.mpr (Or.inl hd2)
  rw [hsplit, List.foldl_append, List.foldl_cons]
  obtain ⟨hsh1, news1, hpend1, hnodup1, hnews1, hothers1⟩ :=
    foldl_relax_mid hbound0 hrestle hsettle hl1 (midInv_init hshape)
  set st1 := l1.foldl (relaxStep lvl w h cur) (dist0, rest) with hst1
  have hcurn1 : ¬ cur ∈ news1 := fun hc =>
    (hnews1 cur hc).2.2.2.2.2.1 (List.mem_cons_self cur rest)
  have hcur1 : getDist st1.1 cur.1 cur.2 = getDist dist0 cur.1 cur.2 :=
    hothers1 cur hcurn1
  refine le_trans (foldl_relax_mono lvl w h cur l2 _ q) ?_
  unfold relaxStep
  have hc1 : ((cur.1 : ℤ) + d.1).toNat = q.1 := by omega
  have hc2 : ((cur.2 : ℤ) + d.2).toNat = q.2 := by omega
  have hb : ¬ ((cur.1 : ℤ) + d.1 < 0 ∨ (cur.2 : ℤ) + d.2 < 0
      ∨ (w : ℤ) ≤ (cur.1 : ℤ) + d.1 ∨ (h : ℤ) ≤ (cur.2 : ℤ) + d.2) := by
    have hb1 := hqB.1
    have hb2 := hqB.2
    omega
  rw [if_neg hb]
  have hwalk : ¬ ¬ lvl.CanWalk ((cur.1 : ℤ) + d.1) ((cur.2 : ℤ) + d.2) = true := by
    rw [not_not, ← hq1, ← hq2]
    exact hqW
  rw [if_neg hwalk]
  by_cases h3 : getDist st1.1 cur.1 cur.2 + 1
      < getDist st1.1 ((cur.1 : ℤ) + d.1).toNat ((cur.2 : ℤ) + d.2).toNat
  · rw [if_pos h3]
    dsimp only
    rw [hc1, hc2, getDist_set_self hsh1 hqB, hcur1]
  · rw [if_neg h3]
    rw [not_lt, hc1, hc2, hcur1] at h3
    exact h3

/-- Popping the queue head and relaxing its four neighbors preserves the
BFS loop invariant. -/
theorem bfs_step {lvl : Level} {w h : ℕ} {t : ℕ × ℕ} {dist : List (List ℕ)}
    {cur : ℕ × ℕ} {rest : List (ℕ × ℕ)}
    (hinv : BfsInv lvl w h t dist (cur :: rest)) :
    BfsInv lvl w h t
      (bfsDirs.foldl (relaxStep lvl w h cur) (dist, rest)).1
      (bfsDirs.foldl (relaxStep lvl w h cur) (dist, rest)).2 := by
  obtain ⟨hshape, ht0, hbound, hsound, hpendB, hpendFin, hchain, hsettledLe,
    hclosure, hnodup⟩ := hinv
  have hcurB : inB w h cur := hpendB cur (List.mem_cons_self cur rest)
  have hcurFin : getDist dist cur.1 cur.2 < INF :=
    hpendFin cur (List.mem_cons_self cur rest)
  obtain ⟨hhead, htail⟩ := List.pairwise_cons.mp hchain
  have hrestle : ∀ q ∈ rest,
      getDist dist q.1 q.2 ≤ getDist dist cur.1 cur.2 + 1 :=
    fun q hq => (hhead q hq).2
  have hrestge : ∀ q ∈ rest,
      getDist dist cur.1 cur.2 ≤ getDist dist q.1 q.2 :=
    fun q hq => (hhead q hq).1
  have hsettle : ∀ p : ℕ × ℕ, inB w h p → getDist dist p.1 p.2 < INF →
      ¬ p ∈ cur :: rest → getDist dist p.1 p.2 ≤ getDist dist cur.1 cur.2 :=
    fun p h1 h2 h3 => hsettledLe p h1 h2 h3 cur (List.mem_cons_self cur rest)
  obtain ⟨hshF, news, hpendF, hnodupN, hnewsF, hothersF⟩ :=
    foldl_relax_mid hbound hrestle hsettle (fun d hd => hd) (midInv_init hshape)
  set st := bfsDirs.foldl (relaxStep lvl w h cur) (dist, rest) with hst
  have hcurN : ¬ cur ∈ news := fun hc =>
    (hnewsF cur hc).2.2.2.2.2.1 (List.mem_cons_self cur rest)
  have hcurEq : getDist st.1 cur.1 cur.2 = getDist dist cur.1 cur.2 :=
    hothersF cur hcurN
  have hdisj : ∀ q ∈ news, ¬ q ∈ rest := fun q hq hr =>
    (hnewsF q hq).2.2.2.2.2.1 (List.mem_cons_of_mem cur hr)
  have htrans : ∀ p ∈ rest, getDist st.1 p.1 p.2 = getDist dist p.1 p.2 :=
    fun p hp => hothersF p (fun hn => hdisj p hn hp)
  rw [hpendF]
  refine ⟨hshF, ?_, ?_, ?_, ?_, ?_, ?_, ?_, ?_, ?_⟩
  · -- the target's label stays 0
    have htN : ¬ t ∈ news := by
      intro htn
      have := (hnewsF t htn).2.2.1
      rw [ht0] at this
      exact absurd this.symm (by unfold INF; omega)
    rw [hothersF t htN]
    exact ht0
  · -- labels stay bounded by INF
    intro p hp
    by_cases hpN : p ∈ news
    · rw [(hnewsF p hpN).2.2.2.1]
      exact le_of_lt (hnewsF p hpN).2.2.2.2.1
    · rw [hothersF p hpN]
      exact hbound p hp
  · -- soundness: every finite label is witnessed by a path
    intro p hp hfin
    by_cases hpN : p ∈ news
    · obtain ⟨hB, hW, hI, hEq, hFin, hNcr, d, hd, hd1, hd2⟩ := hnewsF p hpN
      rw [hEq]
      have hreach : ReachesIn lvl t (getDist dist cur.1 cur.2) cur = true :=
        hsound cur hcurB hcurFin
      simp only [ReachesIn, Bool.and_eq_true]
      refine ⟨hW, ?_⟩
      rw [List.any_eq_true]
      refine ⟨(-d.1, -d.2), bfsDirs_neg_mem d hd, ?_⟩
      have he1 : (p.1 : ℤ) + -d.1 = ((cur.1 : ℕ) : ℤ) := by omega
      have he2 : (p.2 : ℤ) + -d.2 = ((cur.2 : ℕ) : ℤ) := by omega
      simp only [he1, he2, Int.toNat_natCast, Bool.and_eq_true, decide_eq_true_eq]
      exact ⟨⟨Int.natCast_nonneg cur.1, Int.natCast_nonneg cur.2⟩, hreach⟩
    · rw [hothersF p hpN] at hfin ⊢
      exact hsound p hp hfin
  · -- pending nodes are in bounds
    intro p hp
    rcases List.mem_append.mp hp with hr | hn
    · exact hpendB p (List.mem_cons_of_mem cur hr)
    · exact (hnewsF p hn).1
  · -- pending nodes carry finite labels
    intro p hp
    rcases List.mem_append.mp hp with hr | hn
    · rw [htrans p hr]
      exact hpendFin p (List.mem_cons_of_mem cur hr)
    · rw [(hnewsF p hn).2.2.2.1]
      exact (hnewsF p hn).2.2.2.2.1
  · -- the queue labels stay sorted with spread at most one
    rw [List.pairwise_append]
    refine ⟨?_, ?_, ?_⟩
    · refine List.Pairwise.imp_of_mem ?_ htail
      intro a b ha hb hab
      rw [htrans a ha, htrans b hb]
      exact hab
    · refine hnodupN.pairwise_of_forall_ne ?_
      intro a ha b hb _
      rw [(hnewsF a ha).2.2.2.1, (hnewsF b hb).2.2.2.1]
      omega
    · intro a ha b hb
      rw [htrans a ha, (hnewsF b hb).2.2.2.1]
      exact ⟨hrestle a ha, by have := hrestge a ha; omega⟩
  · -- settled labels never exceed pending labels
    intro p hp hfin hpmem q hq
    have hpRest : ¬ p ∈ rest := fun hc =>
      hpmem (List.mem_append.mpr (Or.inl hc))
    have hpNews : ¬ p ∈ news := fun hc =>
      hpmem (List.mem_append.mpr (Or.inr hc))
    rw [hothersF p hpNews] at hfin ⊢
    by_cases hpc : p = cur
    · subst hpc
      rcases List.mem_append.mp hq with hr | hn
      · rw [htrans q hr]
        exact hrestge q hr
      · rw [(hnewsF q hn).2.2.2.1]
        omega
    · have hpNot : ¬ p ∈ cur :: rest := by
        intro hc
        rcases List.mem_cons.mp hc with hc | hc
        · exact hpc hc
        · exact hpRest hc
      rcases List.mem_append.mp hq with hr | hn
      · rw [htrans q hr]
        exact hsettledLe p hp hfin hpNot q (List.mem_cons_of_mem cur hr)
      · rw [(hnewsF q hn).2.2.2.1]
        have := hsettle p hp hfin hpNot
        omega
  · -- settled nodes are relaxed: neighbors within one
    intro p hp hfin hpmem d hd q hq1 hq2 hqB hqW
    have hpRest : ¬ p ∈ rest := fun hc =>
      hpmem (List.mem_append.mpr (Or.inl hc))
    have hpNews : ¬ p ∈ news := fun hc =>
      hpmem (List.mem_append.mpr (Or.inr hc))
    rw [hothersF p hpNews] at hfin ⊢
    by_cases hpc : p = cur
    · subst hpc
      exact relaxed_after hshape hbound hrestle hsettle hd hq1 hq2 hqB hqW
    · have hpNot : ¬ p ∈ cur :: rest := by
        intro hc
        rcases List.mem_cons.mp hc with hc | hc
        · exact hpc hc
        · exact hpRest hc
      have hold := hclosure p hp hfin hpNot d hd q hq1 hq2 hqB hqW
      by_cases hqN : q ∈ news
      · rw [(hnewsF q hqN).2.2.2.1]
        have hqI := (hnewsF q hqN).2.2.1
        have hqF := (hnewsF q hqN).2.2.2.2.1
        rw [hqI] at hold
        omega
      · rw [hothersF q hqN]
        exact hold
  · -- the queue stays duplicate-free
    rw [List.nodup_append]
    exact ⟨(List.nodup_cons.mp hnodup).2, hnodupN,
      fun a ha hb => hdisj a hb ha⟩

/-- The invariant holds for the matrix `BuildBFS` seeds: all `INF` except
`0` at the in-bounds target, with the target alone in the queue. -/
theorem bfsInv_init (lvl : Level) {w h : ℕ} {t : ℕ × ℕ} (htB : inB w h t) :
    BfsInv lvl w h t
      (setDist (List.replicate h (List.replicate w INF)) t.1 t.2 0) [t] := by
  have hshape0 := distShape_replicate w h INF
  have hshape := distShape_set hshape0 t.1 t.2 0
  have hval : ∀ p : ℕ × ℕ, inB w h p →
      getDist (setDist (List.replicate h (List.replicate w INF)) t.1 t.2 0) p.1 p.2
        = if p.1 = t.1 ∧ p.2 = t.2 then 0 else INF := by
    intro p hp
    by_cases hpt : p.1 = t.1 ∧ p.2 = t.2
    · rw [if_pos hpt]
      have : p = t := Prod.ext hpt.1 hpt.2
      subst this
      exact getDist_set_self hshape0 hp 0
    · rw [if_neg hpt, getDist_set_ne _ hpt]
      exact getDist_replicate hp INF
  have ht0 : getDist (setDist (List.replicate h (List.replicate w INF)) t.1 t.2 0)
      t.1 t.2 = 0 := by
    rw [hval t htB, if_pos ⟨rfl, rfl⟩]
  have hfin : ∀ p : ℕ × ℕ, inB w h p →
      getDist (setDist (List.replicate h (List.replicate w INF)) t.1 t.2 0) p.1 p.2
        < INF → p = t := by
    intro p hp hlt
    rw [hval p hp] at hlt
    by_cases hpt : p.1 = t.1 ∧ p.2 = t.2
    · exact Prod.ext hpt.1 hpt.2
    · rw [if_neg hpt] at hlt
      omega
  refine ⟨hshape, ht0, ?_, ?_, ?_, ?_, ?_, ?_, ?_, List.nodup_singleton t⟩
  · intro p hp
    rw [hval p hp]
    by_cases hpt : p.1 = t.1 ∧ p.2 = t.2
    · rw [if_pos hpt]; exact Nat.zero_le INF
    · rw [if_neg hpt]
  · intro p hp hlt
    have hpt := hfin p hp hlt
    subst hpt
    rw [ht0]
    simp only [ReachesIn, decide_eq_true_eq]
  · intro p hp
    rw [List.mem_singleton.mp hp]
    exact htB
  · intro p hp
    rw [List.mem_singleton.mp hp, ht0]
    unfold INF
    omega
  · exact List.pairwise_singleton _ t
  · intro p hp hlt hpmem q hq
    exact absurd (List.mem_singleton.mpr (hfin p hp hlt)) hpmem
  · intro p hp hlt hpmem d hd q hq1 hq2 hqB hqW
    exact absurd (List.mem_singleton.mpr (hfin p hp hlt)) hpmem

/-- Run to completion: with fuel at least `2 * sumDist + |queue|` the loop
consumes the whole queue and the invariant holds with an empty queue. -/
theorem bfsLoop_post {lvl : Level} {w h : ℕ} {t : ℕ × ℕ} :
    ∀ (fuel : ℕ) (dist : List (List ℕ)) (pend : List (ℕ × ℕ)),
      BfsInv lvl w h t dist pend →
      2 * sumDist dist + pend.length ≤ fuel →
      BfsInv lvl w h t (bfsLoop lvl w h fuel dist pend) [] := by
  intro fuel
  induction fuel with
  | zero =>
    intro dist pend hinv hfuel
    have hpend : pend = [] := by
      cases pend with
      | nil => rfl
      | cons a l => simp only [List.length_cons] at hfuel; omega
    subst hpend
    simpa only [bfsLoop] using hinv
  | succ fuel ih =>
    intro dist pend hinv hfuel
    cases pend with
    | nil => simpa only [bfsLoop] using hinv
    | cons cur rest =>
      have hstep := bfs_step hinv
      have hmu := foldl_relax_mu lvl w h cur bfsDirs (dist, rest)
      have heq : bfsLoop lvl w h (fuel + 1) dist (cur :: rest)
          = bfsLoop lvl w h fuel
              (bfsDirs.foldl (relaxStep lvl w h cur) (dist, rest)).1
              (bfsDirs.foldl (relaxStep lvl w h cur) (dist, rest)).2 := rfl
      rw [heq]
      refine ih _ _ hstep ?_
      simp only [List.length_cons] at hfuel
      dsimp only at hmu
      omega

/-- The endpoint of a `ReachesIn` path is the target or a walkable tile. -/
theorem reachesIn_endpoint {lvl : Level} {t : ℕ × ℕ} :
    ∀ {n : ℕ} {p : ℕ × ℕ}, ReachesIn lvl t n p = true →
      p = t ∨ lvl.CanWalk p.1 p.2 = true := by
  intro n p hr
  cases n with
  | zero =>
    simp only [ReachesIn, decide_eq_true_eq] at hr
    exact Or.inl hr
  | succ n =>
    simp only [ReachesIn, Bool.and_eq_true] at hr
    exact Or.inr hr.1

/-- Completeness of the finished BFS matrix: a path of `n` steps to `p`
forces `p`'s label to be at most `n`. -/
theorem reachesIn_le {lvl : Level} {w h : ℕ} {t : ℕ × ℕ} {dist : List (List ℕ)}
    (hwb : ∀ x y : ℤ, lvl.CanWalk x y = true →
      0 ≤ x ∧ 0 ≤ y ∧ x < (w : ℤ) ∧ y < (h : ℤ))
    (htB : inB w h t)
    (hinv : BfsInv lvl w h t dist []) :
    ∀ (n : ℕ) (p : ℕ × ℕ), ReachesIn lvl t n p = true → inB w h p →
      getDist dist p.1 p.2 ≤ n := by
  obtain ⟨hshape, ht0, hbound, hsound, _, _, _, _, hclosure, _⟩ := hinv
  intro n
  induction n with
  | zero =>
    intro p hr hp
    simp only [ReachesIn, decide_eq_true_eq] at hr
    subst hr
    rw [ht0]
  | succ n ih =>
    intro p hr hp
    simp only [ReachesIn, Bool.and_eq_true, List.any_eq_true] at hr
    obtain ⟨hWp, d, hd, hinner⟩ := hr
    simp only [Bool.and_eq_true, decide_eq_true_eq] at hinner
    obtain ⟨⟨hx0, hy0⟩, hrq⟩ := hinner
    set q : ℕ × ℕ := (((p.1 : ℤ) + d.1).toNat, ((p.2 : ℤ) + d.2).toNat) with hqdef
    have hq1 : (q.1 : ℤ) = (p.1 : ℤ) + d.1 := by
      simp only [hqdef]
      omega
    have hq2 : (q.2 : ℤ) = (p.2 : ℤ) + d.2 := by
      simp only [hqdef]
      omega
    have hqB : inB w h q := by
      rcases reachesIn_endpoint hrq with hqt | hqW
      · rw [hqt]; exact htB
      · have := hwb q.1 q.2 hqW
        exact ⟨by omega, by omega⟩
    have hqle : getDist dist q.1 q.2 ≤ n := ih q hrq hqB
    by_cases hbig : INF ≤ n + 1
    · exact le_trans (hbound p hp) hbig
    · have hqfin : getDist dist q.1 q.2 < INF := by omega
      have hstep := hclosure q hqB hqfin (List.not_mem_nil q)
        (-d.1, -d.2) (bfsDirs_neg_mem d hd) p (by omega) (by omega) hp hWp
      omega

/-- A `ReachesIn` path unrolls to an explicit tile list. -/
theorem reach_chain {lvl : Level} {t : ℕ × ℕ} :
    ∀ (n : ℕ) (p : ℕ × ℕ), ReachesIn lvl t n p = true →
      ∃ L, chainOk lvl t L = true ∧ L.length = n + 1 ∧ L.head? = some p := by
  intro n
  induction n with
  | zero =>
    intro p hr
    simp only [ReachesIn, decide_eq_true_eq] at hr
    subst hr
    exact ⟨[p], by simp [chainOk], rfl, rfl⟩
  | succ n ih =>
    intro p hr
    simp only [ReachesIn, Bool.and_eq_true, List.any_eq_true] at hr
    obtain ⟨hWp, d, hd, hinner⟩ := hr
    simp only [Bool.and_eq_true, decide_eq_true_eq] at hinner
    obtain ⟨⟨hx0, hy0⟩, hrq⟩ := hinner
    obtain ⟨L0, hc0, hl0, hh0⟩ :=
      ih (((p.1 : ℤ) + d.1).toNat, ((p.2 : ℤ) + d.2).toNat) hrq
    cases L0 with
    | nil => exact absurd hh0 (by simp)
    | cons q rest =>
      rw [List.head?_cons, Option.some.injEq] at hh0
      subst hh0
      refine ⟨p :: (((p.1 : ℤ) + d.1).toNat, ((p.2 : ℤ) + d.2).toNat) :: rest,
        ?_, by simpa using hl0, rfl⟩
      simp only [chainOk, Bool.and_eq_true]
      refine ⟨⟨hWp, ?_⟩, hc0⟩
      unfold adjStep
      rw [List.any_eq_true]
      exact ⟨d, hd, by simp [hx0, hy0]⟩

/-- An explicit tile list folds back into a `ReachesIn` path of length
one less than the list. -/
theorem chain_reach {lvl : Level} {t : ℕ × ℕ} :
    ∀ (L : List (ℕ × ℕ)) (p : ℕ × ℕ), chainOk lvl t L = true →
      L.head? = some p → ReachesIn lvl t (L.length - 1) p = true := by
  intro L
  induction L with
  | nil =>
    intro p _ hh
    exact absurd hh (by simp)
  | cons a L' ih =>
    intro p hc hh
    rw [List.head?_cons, Option.some.injEq] at hh
    subst hh
    cases L' with
    | nil =>
      simp only [chainOk, decide_eq_true_eq] at hc
      subst hc
      simp [ReachesIn]
    | cons q rest =>
      simp only [chainOk, Bool.and_eq_true] at hc
      obtain ⟨⟨hW, hadj⟩, hc'⟩ := hc
      rw [List.length_cons, List.length_cons]
      simp only [Nat.add_sub_cancel]
      simp only [ReachesIn, Bool.and_eq_true, List.any_eq_true]
      refine ⟨hW, ?_⟩
      unfold adjStep at hadj
      rw [List.any_eq_true] at hadj
      obtain ⟨d, hd, hdet⟩ := hadj
      simp only [Bool.and_eq_true, decide_eq_true_eq] at hdet
      obtain ⟨⟨⟨h0x, h0y⟩, he1⟩, he2⟩ := hdet
      refine ⟨d, hd, ?_⟩
      simp only [Bool.and_eq_true, decide_eq_true_eq]
      refine ⟨⟨h0x, h0y⟩, ?_⟩
      have hq : (((a.1 : ℤ) + d.1).toNat, ((a.2 : ℤ) + d.2).toNat) = q :=
        (Prod.ext he1.symm he2.symm)
      rw [hq]
      have := ih q hc' rfl
      simpa using this

/-- Chains are closed under dropping a prefix. -/
theorem chainOk_suffix {lvl : Level} {t : ℕ × ℕ} :
    ∀ (l1 M : List (ℕ × ℕ)), M ≠ [] → chainOk lvl t (l1 ++ M) = true →
      chainOk lvl t M = true := by
  intro l1
  induction l1 with
  | nil =>
    intro M _ hc
    simpa using hc
  | cons x l1 ih =>
    intro M hM hc
    refine ih M hM ?_
    rw [List.cons_append] at hc
    have hne : l1 ++ M ≠ [] := fun he => hM (List.append_eq_nil.mp he).2
    obtain ⟨w, ws, hW⟩ := List.exists_cons_of_ne_nil hne
    rw [hW] at hc ⊢
    simp only [chainOk, Bool.and_eq_true] at hc
    exact hc.2

/-- Every chain shortens to a duplicate-free chain with the same head. -/
theorem chain_shorten {lvl : Level} {t : ℕ × ℕ} :
    ∀ (N : ℕ) (L : List (ℕ × ℕ)), L.length ≤ N → chainOk lvl t L = true →
      ∃ L', chainOk lvl t L' = true ∧ L'.head? = L.head? ∧ L'.Nodup
        ∧ (∀ x ∈ L', x ∈ L) ∧ L'.length ≤ L.length := by
  intro N
  induction N with
  | zero =>
    intro L hlen hc
    rw [Nat.le_zero, List.length_eq_zero] at hlen
    subst hlen
    exact absurd hc (by simp [chainOk])
  | succ N ih =>
    intro L hlen hc
    cases L with
    | nil => exact absurd hc (by simp [chainOk])
    | cons p rest =>
      by_cases hmem : p ∈ rest
      · obtain ⟨l2, l3, hsplit⟩ := List.append_of_mem hmem
        have hcut : chainOk lvl t (p :: l3) = true := by
          refine chainOk_suffix (p :: l2) (p :: l3) (by simp) ?_
          rw [List.cons_append, ← hsplit]
          exact hc
        have hlen3 : (p :: l3).length ≤ N := by
          rw [List.length_cons] at hlen ⊢
          rw [hsplit, List.length_append, List.length_cons] at hlen
          omega
        obtain ⟨L', hc', hh', hnd', hsub', hle'⟩ := ih (p :: l3) hlen3 hcut
        refine ⟨L', hc', hh', hnd', ?_, ?_⟩
        · intro x hx
          rcases List.mem_cons.mp (hsub' x hx) with hx1 | hx2
          · rw [hx1]; exact List.mem_cons_self p rest
          · refine List.mem_cons_of_mem p ?_
            rw [hsplit]
            exact List.mem_append.mpr (Or.inr (List.mem_cons_of_mem p hx2))
        · refine le_trans hle' ?_
          rw [List.length_cons, List.length_cons, hsplit, List.length_append,
            List.length_cons]
          omega
      · cases rest with
        | nil =>
          exact ⟨[p], hc, rfl, List.nodup_singleton p, fun x hx => hx, le_refl _⟩
        | cons q rest' =>
          simp only [chainOk, Bool.and_eq_true] at hc
          obtain ⟨⟨hW, hadj⟩, hc'⟩ := hc
          have hlen' : (q :: rest').length ≤ N := by
            rw [List.length_cons] at hlen
            omega
          obtain ⟨L'', hc'', hh'', hnd'', hsub'', hle''⟩ := ih (q :: rest') hlen' hc'
          cases L'' with
          | nil => exact absurd hh'' (by simp)
          | cons q0 tail'' =>
            simp only [List.head?_cons, Option.some.injEq] at hh''
            subst hh''
            refine ⟨p :: q0 :: tail'', ?_, rfl, ?_, ?_, ?_⟩
            · simp only [chainOk, Bool.and_eq_true]
              exact ⟨⟨hW, hadj⟩, hc''⟩
            · rw [List.nodup_cons]
              refine ⟨fun hp => hmem (hsub'' p hp), hnd''⟩
            · intro x hx
              rcases List.mem_cons.mp hx with hx1 | hx2
              · rw [hx1]; exact List.mem_cons_self p (q0 :: rest')
              · exact List.mem_cons_of_mem p (hsub'' x hx2)
            · rw [List.length_cons, List.length_cons]
              rw [List.length_cons] at hle'' ⊢
              omega

/-- Every tile on a chain is walkable or is the target itself. -/
theorem chain_mem_walk {lvl : Level} {t : ℕ × ℕ} :
    ∀ (L : List (ℕ × ℕ)), chainOk lvl t L = true →
      ∀ x ∈ L, lvl.CanWalk x.1 x.2 = true ∨ x = t := by
  intro L
  induction L with
  | nil =>
    intro _ x hx
    exact absurd hx (List.not_mem_nil x)
  | cons a L' ih =>
    intro hc x hx
    cases L' with
    | nil =>
      simp only [chainOk, decide_eq_true_eq] at hc
      rcases List.mem_singleton.mp hx with rfl
      exact Or.inr hc
    | cons q rest =>
      simp only [chainOk, Bool.and_eq_true] at hc
      rcases List.mem_cons.mp hx with hx1 | hx2
      · rw [hx1]
        exact Or.inl hc.1.1
      · exact ih hc.2 x hx2

/-- A duplicate-free chain fits inside the `w`-by-`h` tile grid. -/
theorem chain_len_le {lvl : Level} {w h : ℕ} {t : ℕ × ℕ}
    (hwb : ∀ x y : ℤ, lvl.CanWalk x y = true →
      0 ≤ x ∧ 0 ≤ y ∧ x < (w : ℤ) ∧ y < (h : ℤ))
    (htB : inB w h t) {L : List (ℕ × ℕ)}
    (hc : chainOk lvl t L = true) (hnd : L.Nodup) :
    L.length ≤ w * h := by
  have hsub : L.toFinset ⊆ Finset.range w ×ˢ Finset.range h := by
    intro x hx
    rw [List.mem_toFinset] at hx
    rw [Finset.mem_product, Finset.mem_range, Finset.mem_range]
    rcases chain_mem_walk L hc x hx with hW | hxt
    · have := hwb x.1 x.2 hW
      exact ⟨by omega, by omega⟩
    · rw [hxt]
      exact ⟨htB.1, htB.2⟩
  have hcard := Finset.card_le_card hsub
  rw [List.toFinset_card_of_nodup hnd] at hcard
  rw [Finset.card_product, Finset.card_range, Finset.card_range] at hcard
  exact hcard

/-- Path shortening: any reachable tile is reachable within fewer than
`w * h` steps. -/
theorem reach_short {lvl : Level} {w h : ℕ} {t : ℕ × ℕ}
    (hwb : ∀ x y : ℤ, lvl.CanWalk x y = true →
      0 ≤ x ∧ 0 ≤ y ∧ x < (w : ℤ) ∧ y < (h : ℤ))
    (htB : inB w h t) {n : ℕ} {p : ℕ × ℕ}
    (hr : ReachesIn lvl t n p = true) :
    ∃ m, m < w * h ∧ ReachesIn lvl t m p = true := by
  obtain ⟨L, hc, hlen, hhead⟩ := reach_chain n p hr
  obtain ⟨L', hc', hh', hnd', _, _⟩ := chain_shorten L.length L (le_refl _) hc
  have hlen' := chain_len_le hwb htB hc' hnd'
  have hne : L' ≠ [] := by
    intro he
    rw [he, hhead] at hh'
    exact absurd hh'.symm (by simp)
  have hpos : 1 ≤ L'.length := by
    cases L' with
    | nil => exact absurd rfl hne
    | cons a l => rw [List.length_cons]; omega
  refine ⟨L'.length - 1, ?_, ?_⟩
  · omega
  · refine chain_reach L' p hc' ?_
    rw [hh', hhead]

/-- C1: BFS correctness of the distance oracle.  After `BuildBFS` on a
distance map of the level's dimensions from a target position whose tile
is on the map and walkable, every tile reachable from the target tile
through 4-connected walkable tiles reads back the length of the shortest
such path from `GetDistance`, and every unreachable tile — in particular
every wall tile — reads back the `INF` sentinel.  (`hsize` asks the tile
count to stay below `INF = 2^30`, which every actual level satisfies.) -/
theorem C1_bfs_correct (dm : DistanceMap) (lvl : Level) (targetPos : Vec)
    (hw : dm.width = lvl.width) (hh : dm.height = lvl.height)
    (hsize : lvl.width * lvl.height < INF)
    (htin : ¬ ((PosToTile targetPos).1 < 0 ∨ (PosToTile targetPos).2 < 0
        ∨ (dm.width : ℤ) ≤ (PosToTile targetPos).1
        ∨ (dm.height : ℤ) ≤ (PosToTile targetPos).2))
    (htw : lvl.CanWalk (PosToTile targetPos).1 (PosToTile targetPos).2 = true)
    (x y : ℤ) (hx0 : 0 ≤ x) (hy0 : 0 ≤ y)
    (hxw : x < (lvl.width : ℤ)) (hyh : y < (lvl.height : ℤ)) :
    (∀ hr : Reachable lvl
        ((PosToTile targetPos).1.toNat, (PosToTile targetPos).2.toNat)
        (x.toNat, y.toNat),
      (dm.BuildBFS targetPos lvl).GetDistance x y
        = shortestDist lvl
            ((PosToTile targetPos).1.toNat, (PosToTile targetPos).2.toNat)
            (x.toNat, y.toNat) hr)
    ∧ (¬ Reachable lvl
        ((PosToTile targetPos).1.toNat, (PosToTile targetPos).2.toNat)
        (x.toNat, y.toNat) →
      (dm.BuildBFS targetPos lvl).GetDistance x y = INF)
    ∧ (lvl.CanWalk x y = false →
      (dm.BuildBFS targetPos lvl).GetDistance x y = INF) := by
  obtain ⟨dd, dw, dh⟩ := dm
  dsimp only at hw hh htin
  set t := PosToTile targetPos with htdef
  set tN : ℕ × ℕ := (t.1.toNat, t.2.toNat) with htNdef
  set pN : ℕ × ℕ := (x.toNat, y.toNat) with hpNdef
  have htin2 := htin
  push_neg at htin2
  obtain ⟨ht1, ht2, ht3, ht4⟩ := htin2
  have htB : inB dw dh tN := ⟨show t.1.toNat < dw by omega,
    show t.2.toNat < dh by omega⟩
  have hpB : inB dw dh pN := ⟨show x.toNat < dw by omega,
    show y.toNat < dh by omega⟩
  set d0 : List (List ℕ) :=
    setDist (List.replicate dh (List.replicate dw INF)) tN.1 tN.2 0 with hd0def
  set D : List (List ℕ) := bfsLoop lvl dw dh (2 * sumDist d0 + 1) d0 [tN]
    with hDdef
  have hres : DistanceMap.BuildBFS ⟨dd, dw, dh⟩ targetPos lvl = ⟨D, dw, dh⟩ := by
    unfold DistanceMap.BuildBFS
    dsimp only
    rw [if_neg htin]
  have hGD : DistanceMap.GetDistance ⟨D, dw, dh⟩ x y
      = getDist D x.toNat y.toNat := by
    unfold DistanceMap.GetDistance
    rw [if_neg (by dsimp only; omega)]
  have hwb : ∀ a b : ℤ, lvl.CanWalk a b = true →
      0 ≤ a ∧ 0 ≤ b ∧ a < (dw : ℤ) ∧ b < (dh : ℤ) := by
    intro a b hab
    have := canWalk_bounds hab
    omega
  have hfinal : BfsInv lvl dw dh tN D [] := by
    rw [hDdef]
    exact bfsLoop_post _ _ _ (bfsInv_init lvl htB) (by simp)
  have hcopy := hfinal
  obtain ⟨hshapeF, ht0F, hboundF, hsoundF, -, -, -, -, -, -⟩ := hcopy
  have hsize2 : dw * dh < INF := by rw [hw, hh]; exact hsize
  have hInf : ¬ Reachable lvl tN pN → getDist D pN.1 pN.2 = INF := by
    intro hnr
    have hb := hboundF pN hpB
    rcases Nat.lt_or_ge (getDist D pN.1 pN.2) INF with hlt | hge2
    · exact absurd ⟨getDist D pN.1 pN.2, hsoundF pN hpB hlt⟩ hnr
    · omega
  refine ⟨?_, ?_, ?_⟩
  · intro hr
    rw [hres, hGD]
    show getDist D pN.1 pN.2 = Nat.find hr
    have hle : getDist D pN.1 pN.2 ≤ Nat.find hr :=
      reachesIn_le hwb htB hfinal (Nat.find hr) pN (Nat.find_spec hr) hpB
    obtain ⟨m, hm, hrm⟩ := reach_short hwb htB (Nat.find_spec hr)
    have hfle : Nat.find hr ≤ m := Nat.find_min' hr hrm
    have hlt : getDist D pN.1 pN.2 < INF := by omega
    have hge : Nat.find hr ≤ getDist D pN.1 pN.2 :=
      Nat.find_min' hr (hsoundF pN hpB hlt)
    omega
  · intro hnr
    rw [hres, hGD]
    show getDist D pN.1 pN.2 = INF
    exact hInf hnr
  · intro hwf
    rw [hres, hGD]
    show getDist D pN.1 pN.2 = INF
    refine hInf ?_
    rintro ⟨n, hn⟩
    rcases reachesIn_endpoint hn with hpt | hpw
    · have hx : x = t.1 := by
        have h1 : pN.1 = tN.1 := by rw [hpt]
        have h2 : pN.2 = tN.2 := by rw [hpt]
        have h3 : x.toNat = t.1.toNat := h1
        omega
      have hy : y = t.2 := by
        have h2 : pN.2 = tN.2 := by rw [hpt]
        have h4 : y.toNat = t.2.toNat := h2
        omega
      rw [hx, hy, htw] at hwf
      exact Bool.noConfusion hwf
    · have hx : (pN.1 : ℤ) = x := by
        show ((x.toNat : ℕ) : ℤ) = x
        omega
      have hy : (pN.2 : ℤ) = y := by
        show ((y.toNat : ℕ) : ℤ) = y
        omega
      rw [hx, hy, hwf] at hpw
      exact Bool.noConfusion hpw

theorem posToTile_3612 : PosToTile ⟨36, 12⟩ = (1, 0) :=
  PosToTile_eval (by norm_num) (by norm_num) (by norm_num) (by norm_num)
    (by norm_num) (by norm_num) (by norm_num) (by norm_num)

set_option maxRecDepth 1000000 in
/-- Witness for C1 at a concrete input: on the 2-by-1 level whose tile
`(0,0)` is a wall, BFS from the walkable tile `(1,0)` (position
`(36,12)`) reports `INF` at the wall. -/
theorem C1_bfs_correct_witness :
    ((NewDistanceMap 2 1).BuildBFS ⟨36, 12⟩ lvlW).GetDistance 0 0 = INF :=
  (C1_bfs_correct (NewDistanceMap 2 1) lvlW ⟨36, 12⟩ rfl rfl (by decide)
      (by rw [posToTile_3612]; decide) (by rw [posToTile_3612]; decide)
      0 0 (by decide) (by decide) (by decide) (by decide)).2.2 (by decide)

set_option maxRecDepth 1000000 in
/-- C5 counterexample: in the all-walkable 3-by-3 room with the target
position at the center tile's center `(36,36)`, the corner cell `(0,0)` —
one of the 8 surrounding cells — reads distance `2`, not `1`: the room is
4-connected, so diagonal neighbors are two steps away. -/
theorem C5_counterexample :
    ((NewDistanceMap 3 3).BuildBFS ⟨36, 36⟩ lvl3).GetDistance 0 0 = 2
    ∧ ¬ ((NewDistanceMap 3 3).BuildBFS ⟨36, 36⟩ lvl3).GetDistance 0 0 = 1 := by
  decide

set_option maxRecDepth 1000000 in
/-- C5 as amended: in the all-walkable 3-by-3 room with the target at the
center, the 4 edge-adjacent surrounding cells read distance `1` and the 4
corner cells read distance `2`. -/
theorem C5_ring_distances :
    (((NewDistanceMap 3 3).BuildBFS ⟨36, 36⟩ lvl3).GetDistance 1 0 = 1
      ∧ ((NewDistanceMap 3 3).BuildBFS ⟨36, 36⟩ lvl3).GetDistance 0 1 = 1
      ∧ ((NewDistanceMap 3 3).BuildBFS ⟨36, 36⟩ lvl3).GetDistance 2 1 = 1
      ∧ ((NewDistanceMap 3 3).BuildBFS ⟨36, 36⟩ lvl3).GetDistance 1 2 = 1)
    ∧ (((NewDistanceMap 3 3).BuildBFS ⟨36, 36⟩ lvl3).GetDistance 0 0 = 2
      ∧ ((NewDistanceMap 3 3).BuildBFS ⟨36, 36⟩ lvl3).GetDistance 2 0 = 2
      ∧ ((NewDistanceMap 3 3).BuildBFS ⟨36, 36⟩ lvl3).GetDistance 0 2 = 2
      ∧ ((NewDistanceMap 3 3).BuildBFS ⟨36, 36⟩ lvl3).GetDistance 2 2 = 2) := by
  decide

end Pacman
